import Mathlib

/-!
Verification of the Sedumi-format conversion and simplification layer
(`sedumi_writer.py`): the eliminability test, the row-driven elimination
pass, the dead row/column pruning pass, and the block expansion that turns
a mixed equality/inequality/SDP problem into Sedumi standard form.

Matrices are embedded as total functions `ℕ → ℕ → ℚ` together with explicit
row/column counts (entries outside the tracked dimensions are irrelevant to
every computation below and are clamped to 0 in constructed outputs);
right-hand-side vectors are `List ℚ`.  Exact rational arithmetic stands in
for the floating-point arithmetic of the source, which is exact on the
claims' inputs.
-/

namespace SedumiWriter

/-- Forward scan for the first index `t` with `start ≤ t < start + fuel` and
`g t ≠ 0`.  This models the index scans inside the source's
`check_eliminatibility`: the `for i in range(n_elig)` loop, the
`while j < n and g[j] == 0` loop and the `abs(g[j+1:]).any()` test. -/
def scanNZ (g : ℕ → ℚ) : ℕ → ℕ → Option ℕ
  | _, 0 => none
  | start, fuel + 1 => if g start ≠ 0 then some start else scanNZ g (start + 1) fuel

/-- The source's `check_eliminatibility(g, h, n_elig, allow_nonzero_b)`:
decides whether the row `g · x = h` fits the pattern `a·x_i = d` (returning
`(some i, none)`) or `a·x_i + b·x_j = d` (returning `(some i, some j)`),
with `i` among the first `n_elig` variables; `(none, none)` otherwise.
`n` is the length of the row `g`. -/
def check_eliminatibility (g : ℕ → ℚ) (n : ℕ) (h : ℚ) (n_elig : ℕ)
    (allow_nonzero_b : Bool) : Option ℕ × Option ℕ :=
  if allow_nonzero_b = false ∧ h ≠ 0 then (none, none)
  else
    match scanNZ g 0 n_elig with
    | none => (none, none)
    | some i =>
      match scanNZ g (i + 1) (n - (i + 1)) with
      | none => (some i, none)
      | some j =>
        if scanNZ g (j + 1) (n - (j + 1)) = none then (some i, some j)
        else (none, none)

/-- The first nonzero coefficient among the eligible indices `0 .. n_elig-1`,
as the spec describes step 2 of the EliminabilityTest. -/
def firstEligibleNonzero (g : ℕ → ℚ) (n_elig : ℕ) : Option ℕ :=
  (List.range n_elig).find? (fun i => decide (g i ≠ 0))

/-- All indices after `i` (and below the row length `n`) holding a nonzero
coefficient, in increasing order. -/
def laterNonzeros (g : ℕ → ℚ) (n i : ℕ) : List ℕ :=
  (List.range n).filter (fun t => decide (i < t) && decide (g t ≠ 0))

/-- The EliminabilityTest as the spec words it (§4.3): reject nonzero `h`
unless allowed, take the first eligible nonzero index `i`, then case on how
many nonzero coefficients follow it — none, exactly one, or two or more. -/
def check_spec (g : ℕ → ℚ) (n : ℕ) (h : ℚ) (n_elig : ℕ)
    (allow_nonzero_b : Bool) : Option ℕ × Option ℕ :=
  if allow_nonzero_b = false ∧ h ≠ 0 then (none, none)
  else
    match firstEligibleNonzero g n_elig with
    | none => (none, none)
    | some i =>
      match laterNonzeros g n i with
      | [] => (some i, none)
      | [j] => (some i, some j)
      | _ => (none, none)

/-! ## The Simplifier (`simplify_sedumi_model`) -/

/-- A Sedumi cone descriptor, the dict `K = {f, l, s}` of the source:
counts of free and nonnegative variables and the list of SDP block sizes. -/
structure Cone where
  f : ℕ
  l : ℕ
  s : List ℕ
deriving DecidableEq

/-- Number of scalar variables contributed by the SDP blocks:
`sum([s*s for s in dims['s']])`. -/
def sumSq (s : List ℕ) : ℕ := (s.map (fun x => x * x)).sum

/-- A problem in Sedumi format: `min c·x` subject to `A x = b`, with `m`
constraint rows and `n` variables described by `K`.  `A` and `c` are total
functions read only on indices below `m` and `n`; `b` lists the right-hand
sides (its length is the source array's `b.size`, equal to `m` for every
problem the source builds). -/
structure SeduModel where
  m : ℕ
  n : ℕ
  A : ℕ → ℕ → ℚ
  b : List ℚ
  c : ℕ → ℚ
  K : Cone

/-- Working state of the elimination pass: the arrays `A`, `b`, `c` that the
source mutates in place, plus the accumulated objective offset. -/
structure PState where
  A : ℕ → ℕ → ℚ
  b : List ℚ
  c : ℕ → ℚ
  offset : ℚ

/-- One iteration of the source's elimination loop at row `k`: test the
current row with `check_eliminatibility`; on a match with index `i`
(coefficient `aki = A[k,i]`, `factor = b[k]/aki`) update
`b += -factor*A[:,i]` and `offset += -factor*c[i]`; in the two-variable
case with second index `j` (`factor2 = A[k,j]/aki`) also update
`A[:,j] += -factor2*A[:,i]` and `c[j] += -factor2*c[i]`; finally zero out
column `i` of `A` and entry `i` of `c`. -/
def elimStep (n nfree : ℕ) (allow : Bool) (s : PState) (k : ℕ) : PState :=
  match check_eliminatibility (fun idx => s.A k idx) n (s.b.getD k 0) nfree allow with
  | (some i, jopt) =>
    let aki := s.A k i
    let factor : ℚ := s.b.getD k 0 / aki
    let b1 := s.b.mapIdx (fun r v => v - factor * s.A r i)
    let offset1 := s.offset - factor * s.c i
    let A1 : ℕ → ℕ → ℚ :=
      match jopt with
      | some j => fun r cc =>
          if cc = j then s.A r j - (s.A k j / aki) * s.A r i else s.A r cc
      | none => s.A
    let c1 : ℕ → ℚ :=
      match jopt with
      | some j => fun cc =>
          if cc = j then s.c j - (s.A k j / aki) * s.c i else s.c cc
      | none => s.c
    { A := fun r cc => if cc = i then 0 else A1 r cc
      b := b1
      c := fun cc => if cc = i then 0 else c1 cc
      offset := offset1 }
  | (none, _) => s

/-- The row-driven elimination pass (SIMPLIFICATION PART ONE): fold
`elimStep` over the rows in index order, starting from the caller's arrays
and offset 0.  Its final state is also the content of the caller's numpy
arrays after the call, since every update in the source loop is in place. -/
def pass1 (M : SeduModel) (allow : Bool) : PState :=
  (List.range M.m).foldl (elimStep M.n M.K.f allow) ⟨M.A, M.b, M.c, 0⟩

/-- Column `col` of `A` is all-zero on the `m` tracked rows: the source's
`not abs(A[:, col]).any()`. -/
def colIsZero (A : ℕ → ℕ → ℚ) (m col : ℕ) : Bool :=
  decide (∀ r < m, A r col = 0)

/-- Row `row` of `A` is all-zero on the `n` tracked columns. -/
def rowIsZero (A : ℕ → ℕ → ℚ) (n row : ℕ) : Bool :=
  decide (∀ cc < n, A row cc = 0)

/-- The source's `free_and_deletable` conjoined with its all-zero-column
test: a free column (index below `f`) with objective coefficient exactly 0
and an all-zero column. -/
def freeDelCol (A : ℕ → ℕ → ℚ) (c : ℕ → ℚ) (m f col : ℕ) : Bool :=
  decide (col < f) && decide (c col = 0) && colIsZero A m col

/-- The source's `nneg_and_deletable` conjoined with its all-zero-column
test: a nonnegative column (index in `[f, f+l)`) with objective coefficient
`≥ 0` and an all-zero column. -/
def nnegDelCol (A : ℕ → ℕ → ℚ) (c : ℕ → ℚ) (m f l col : ℕ) : Bool :=
  decide (f ≤ col) && decide (col < f + l) && decide (0 ≤ c col) && colIsZero A m col

/-- The surviving columns, in index order: everything the `if`/`elif`
branches of the pruning loop did not classify as deletable. -/
def colsToKeep (A : ℕ → ℕ → ℚ) (c : ℕ → ℚ) (m n f l : ℕ) : List ℕ :=
  (List.range n).filter (fun col => !(freeDelCol A c m f col || nnegDelCol A c m f l col))

/-- `n_deleted_f`: the number of deleted free columns. -/
def nDeletedF (A : ℕ → ℕ → ℚ) (c : ℕ → ℚ) (m n f : ℕ) : ℕ :=
  ((List.range n).filter (fun col => freeDelCol A c m f col)).length

/-- `n_deleted_l`: the number of deleted nonnegative columns (the `elif`
branch, reached only when the free branch did not fire). -/
def nDeletedL (A : ℕ → ℕ → ℚ) (c : ℕ → ℚ) (m n f l : ℕ) : ℕ :=
  ((List.range n).filter
    (fun col => !freeDelCol A c m f col && nnegDelCol A c m f l col)).length

/-- The surviving rows, in index order: a row is dropped exactly when its
right-hand side is 0 and its coefficients are all zero. -/
def rowsToKeep (A : ℕ → ℕ → ℚ) (b : List ℚ) (n m : ℕ) : List ℕ :=
  (List.range m).filter (fun row => !(decide (b.getD row 0 = 0) && rowIsZero A n row))

/-- `cols_to_keep` computed on the state left by the elimination pass. -/
def cols1 (M : SeduModel) (allow : Bool) : List ℕ :=
  colsToKeep (pass1 M allow).A (pass1 M allow).c M.m M.n M.K.f M.K.l

/-- `n_deleted_f` computed on the state left by the elimination pass. -/
def ndf1 (M : SeduModel) (allow : Bool) : ℕ :=
  nDeletedF (pass1 M allow).A (pass1 M allow).c M.m M.n M.K.f

/-- `n_deleted_l` computed on the state left by the elimination pass. -/
def ndl1 (M : SeduModel) (allow : Bool) : ℕ :=
  nDeletedL (pass1 M allow).A (pass1 M allow).c M.m M.n M.K.f M.K.l

/-- `rows_to_keep` computed on the state left by the elimination pass. -/
def rows1 (M : SeduModel) (allow : Bool) : List ℕ :=
  rowsToKeep (pass1 M allow).A (pass1 M allow).b M.n M.m

/-- SIMPLIFICATION STEP PART TWO: the downsized problem, built by selecting
the surviving rows and columns (`A[np.ix_(rows_to_keep, cols_to_keep)]`
and friends) and decrementing the cone counts.  Entries of `A` and `c`
outside the new dimensions are clamped to 0. -/
def prunedModel (M : SeduModel) (allow : Bool) : SeduModel :=
  { m := (rows1 M allow).length
    n := (cols1 M allow).length
    A := fun r cc =>
      if r < (rows1 M allow).length ∧ cc < (cols1 M allow).length then
        (pass1 M allow).A ((rows1 M allow).getD r 0) ((cols1 M allow).getD cc 0)
      else 0
    b := (rows1 M allow).map (fun r => (pass1 M allow).b.getD r 0)
    c := fun cc =>
      if cc < (cols1 M allow).length then (pass1 M allow).c ((cols1 M allow).getD cc 0)
      else 0
    K := ⟨M.K.f - ndf1 M allow, M.K.l - ndl1 M allow, M.K.s⟩ }

/-- The source's `simplify_sedumi_model(A, b, c, K, allow_nonzero_b)`:
the elimination pass, then the pruning pass, then the downsized problem
and the accumulated offset.  `none` models the
`assert len(cols_to_keep) + n_deleted_f + n_deleted_l` failing with an
`AssertionError`. -/
def simplify_sedumi_model (M : SeduModel) (allow : Bool) : Option (SeduModel × ℚ) :=
  if (cols1 M allow).length + ndf1 M allow + ndl1 M allow = 0 then none
  else some (prunedModel M allow, (pass1 M allow).offset)

/-! ## The FormatConverter (`make_sedumi_format_problem`) -/

/-- The error outcomes of the conversion layer: the SOC-cone `assert` in
`make_sedumi_format_problem`, the `NameError` of the unsimplified path
(`obj_cst` is bound only inside the `if simplify:` branch but asserted
unconditionally afterwards), and an `AssertionError` from a failing
`assert`. -/
inductive Err where
  | unsupportedCone : Err
  | nameError : Err
  | assertionFailure : Err
deriving DecidableEq

/-- The `dims` mapping of the input problem data: `l` inequality rows,
`q` SOC block sizes (must be empty), `s` SDP block sizes. -/
structure SourceDims where
  l : ℕ
  q : List ℕ
  s : List ℕ

/-- The problem data handed to `make_sedumi_format_problem`:
`min c·x` s.t. `A x = b`, `G x ⪯ h` (first `dims.l` rows nonnegative, the
rest PSD).  `nx = len(c)`, `ne = len(b)`; `A` is `ne × nx` and `G` is
`(dims.l + Σ s²) × nx`.  The value-preserving coercions of
`problem_data_prep` (to float, to dense, `c` transposed to a row vector)
are implicit in this embedding over `ℚ`-valued functions. -/
structure SourceProblem where
  nx : ℕ
  ne : ℕ
  A : ℕ → ℕ → ℚ
  b : ℕ → ℚ
  c : ℕ → ℚ
  G : ℕ → ℕ → ℚ
  h : ℕ → ℚ
  dims : SourceDims

/-- One numpy block assignment `M[r0:r0+hgt, c0:c0+wid] = B`. -/
def writeBlock (M : ℕ → ℕ → ℚ) (r0 c0 hgt wid : ℕ) (B : ℕ → ℕ → ℚ) :
    ℕ → ℕ → ℚ :=
  fun r cc =>
    if r0 ≤ r ∧ r < r0 + hgt ∧ c0 ≤ cc ∧ cc < c0 + wid then B (r - r0) (cc - c0)
    else M r cc

/-- The identity block `np.eye(k)` (the size is carried by the enclosing
`writeBlock` region). -/
def eye (r cc : ℕ) : ℚ := if r = cc then 1 else 0

/-- The EXPANSION STEP of `make_sedumi_format_problem`: build `c_star`,
`A_star` (by the source's sequence of five block assignments into a zero
matrix) and `b_star` (three slice assignments), and the cone
`K = {f: nx, l: dims['l'], s: dims['s']}`. -/
def expandProblem (P : SourceProblem) : SeduModel :=
  let nx := P.nx
  let ni := P.dims.l
  let ne := P.ne
  let nsdp := sumSq P.dims.s
  let cStar := fun cc => if cc < nx then P.c cc else 0
  let aStar :=
    writeBlock
      (writeBlock
        (writeBlock
          (writeBlock
            (writeBlock (fun _ _ => 0) 0 0 ne nx P.A)
            ne 0 ni nx (fun r cc => P.G r cc))
          ne nx ni ni eye)
        (ne + ni) 0 nsdp nx (fun r cc => P.G (ni + r) cc))
      (ne + ni) (nx + ni) nsdp nsdp eye
  let bStar := (List.range (ne + ni + nsdp)).map
    (fun r => if r < ne then P.b r else P.h (r - ne))
  { m := ne + ni + nsdp
    n := nx + ni + nsdp
    A := aStar
    b := bStar
    c := cStar
    K := ⟨nx, P.dims.l, P.dims.s⟩ }

/-- `make_sedumi_format_problem(problem_data, simplify)`: the SOC
precondition `assert not dims['q']`, the expansion step, the optional first
simplification with `allow_nonzero_b=False`, the unconditional
`assert obj_cst == 0` — a `NameError` when `simplify` is false — and the
final unconditional second call to `simplify_sedumi_model`, whose full
result (including its offset) is returned. -/
def make_sedumi_format_problem (P : SourceProblem) (simplify : Bool) :
    Except Err (SeduModel × ℚ) :=
  if P.dims.q ≠ [] then .error .unsupportedCone
  else
    let M0 := expandProblem P
    if simplify then
      match simplify_sedumi_model M0 false with
      | none => .error .assertionFailure
      | some (M1, objCst) =>
        if objCst = 0 then
          match simplify_sedumi_model M1 false with
          | none => .error .assertionFailure
          | some r => .ok r
        else .error .assertionFailure
    else .error .nameError

/-- `write_sedumi_model(problem_data, target, simplify)`: call the
converter, `assert offset == 0`, then hand the matrices to the out-of-scope
serialization collaborator; the returned model is what gets written. -/
def write_sedumi_model (P : SourceProblem) (simplify : Bool) :
    Except Err SeduModel :=
  match make_sedumi_format_problem P simplify with
  | .error e => .error e
  | .ok (M, offset) => if offset = 0 then .ok M else .error .assertionFailure

/-- The contents of the caller's arrays when `simplify_sedumi_model`
returns: pass 1 of the source mutates the caller-owned `A`, `b`, `c` in
place (`b[:, 0] += ...`, `A[:, j] += ...`, `A[:, i] *= 0.`,
`c[0, i] *= 0.`), while pass 2 only rebinds the local names to freshly
constructed downsized arrays, leaving the caller's objects in their
pass-1-mutated state. -/
def callerArraysAfter (M : SeduModel) (allow : Bool) : PState := pass1 M allow

/-! ## Concrete instances used by witnesses and counterexamples -/

/-- A matrix from a row-major list of rows. -/
def matOf (rows : List (List ℚ)) : ℕ → ℕ → ℚ :=
  fun r cc => (rows.getD r []).getD cc 0

/-- A vector from a list. -/
def vecOf (v : List ℚ) : ℕ → ℚ := fun i => v.getD i 0

/-- A 2-row, 2-variable model (one free, one nonnegative variable) whose
first row `2·x₀ + 3·x₁ = 0` is eliminable with `i = 0`, `j = 1`. -/
def modelW : SeduModel :=
  ⟨2, 2, matOf [[2, 3], [0, 5]], [0, 4], vecOf [1, 1], ⟨1, 1, []⟩⟩

/-- The initial elimination-pass state for `modelW`. -/
def stateW : PState := ⟨modelW.A, modelW.b, modelW.c, 0⟩

/-- A 1-row, 1-variable model with no eliminable row and nothing prunable:
the Simplifier returns it unchanged. -/
def model9 : SeduModel := ⟨1, 1, matOf [[5]], [4], vecOf [1], ⟨0, 1, []⟩⟩

/-- A 1×1 model whose only (free, costless, unconstrained) variable is
pruned away: the reduction leaves zero surviving variables. -/
def modelC5 : SeduModel :=
  ⟨1, 1, matOf [[0]], [0], vecOf [0], ⟨1, 0, []⟩⟩

/-- A 1×1 model with the infeasible row `0 = 1`: its single variable is
pruned, the row is kept, and the resulting 0-variable problem makes a
second `simplify_sedumi_model` call fail its assert. -/
def modelC9 : SeduModel :=
  ⟨1, 1, matOf [[0]], [1], vecOf [0], ⟨1, 0, []⟩⟩

/-- A small source problem: one equality `2·x = 3`, one inequality row
(`G` row 0) and one 1×1 SDP block (`G` row 1). -/
def srcW : SourceProblem :=
  ⟨1, 1, matOf [[2]], vecOf [3], vecOf [4], matOf [[1], [5]], vecOf [6, 7],
    ⟨1, [], [1]⟩⟩

/-- The same source problem with a nonempty SOC block list. -/
def srcQ : SourceProblem :=
  ⟨1, 1, matOf [[2]], vecOf [3], vecOf [4], matOf [[1], [5]], vecOf [6, 7],
    ⟨1, [2], [1]⟩⟩

theorem scanNZ_eq_none_iff (g : ℕ → ℚ) :
    ∀ fuel start, scanNZ g start fuel = none ↔
      ∀ u, start ≤ u → u < start + fuel → g u = 0 := by
  intro fuel
  induction fuel with
  | zero => intro start; simp [scanNZ]; omega
  | succ f ih =>
    intro start
    by_cases hs : g start ≠ 0
    · simp only [scanNZ, if_pos hs]
      constructor
      · intro hc; exact absurd hc (by simp)
      · intro hall
        exact absurd (hall start le_rfl (by omega)) hs
    · push_neg at hs
      have hs' : ¬(g start ≠ 0) := by simp [hs]
      simp only [scanNZ, if_neg hs']
      rw [ih (start + 1)]
      constructor
      · intro hall u hu1 hu2
        rcases Nat.eq_or_lt_of_le hu1 with rfl | hlt
        · exact hs
        · exact hall u hlt (by omega)
      · intro hall u hu1 hu2
        exact hall u (by omega) (by omega)

theorem scanNZ_eq_some_iff (g : ℕ → ℚ) :
    ∀ fuel start t, scanNZ g start fuel = some t ↔
      start ≤ t ∧ t < start + fuel ∧ g t ≠ 0 ∧
        ∀ u, start ≤ u → u < t → g u = 0 := by
  intro fuel
  induction fuel with
  | zero => intro start t; simp [scanNZ]; omega
  | succ f ih =>
    intro start t
    by_cases hs : g start ≠ 0
    · simp only [scanNZ, if_pos hs]
      constructor
      · intro hc
        injection hc with hc
        subst hc
        exact ⟨le_rfl, by omega, hs, fun u h1 h2 => by omega⟩
      · rintro ⟨h1, h2, h3, h4⟩
        rcases Nat.eq_or_lt_of_le h1 with rfl | hlt
        · rfl
        · exact absurd (h4 start le_rfl hlt) hs
    · push_neg at hs
      have hs' : ¬(g start ≠ 0) := by simp [hs]
      simp only [scanNZ, if_neg hs']
      rw [ih (start + 1) t]
      constructor
      · rintro ⟨h1, h2, h3, h4⟩
        refine ⟨by omega, by omega, h3, fun u hu1 hu2 => ?_⟩
        rcases Nat.eq_or_lt_of_le hu1 with rfl | hlt
        · exact hs
        · exact h4 u hlt hu2
      · rintro ⟨h1, h2, h3, h4⟩
        have hst : start < t := by
          rcases Nat.eq_or_lt_of_le h1 with rfl | hlt
          · exact absurd hs h3
          · exact hlt
        exact ⟨by omega, by omega, h3, fun u hu1 hu2 => h4 u (by omega) hu2⟩

theorem find_first_eq_filter_head {α : Type} (p : α → Bool) :
    ∀ l : List α, l.find? p = (l.filter p).head? := by
  intro l
  induction l with
  | nil => rfl
  | cons a t ih =>
    by_cases hp : p a
    · rw [List.find?_cons_of_pos t hp, List.filter_cons, if_pos hp, List.head?_cons]
    · rw [List.find?_cons_of_neg t hp, List.filter_cons, if_neg hp, ih]

theorem scanNZ_eq_find_range (g : ℕ → ℚ) :
    ∀ fuel start, scanNZ g start fuel =
      (List.range' start fuel).find? (fun t => decide (g t ≠ 0)) := by
  intro fuel
  induction fuel with
  | zero => intro start; rfl
  | succ f ih =>
    intro start
    rw [List.range'_succ]
    by_cases hs : g start ≠ 0
    · rw [List.find?_cons_of_pos _ (by simpa using hs)]
      simp only [scanNZ, if_pos hs]
    · rw [List.find?_cons_of_neg _ (by simpa using hs)]
      simp only [scanNZ, if_neg hs]
      exact ih (start + 1)

theorem firstEligibleNonzero_eq_scanNZ (g : ℕ → ℚ) (n_elig : ℕ) :
    firstEligibleNonzero g n_elig = scanNZ g 0 n_elig := by
  rw [firstEligibleNonzero, scanNZ_eq_find_range, List.range_eq_range']

theorem laterNonzeros_sorted (g : ℕ → ℚ) (n i : ℕ) :
    (laterNonzeros g n i).Pairwise (· < ·) :=
  (List.pairwise_lt_range n).filter _

theorem mem_laterNonzeros (g : ℕ → ℚ) (n i x : ℕ) :
    x ∈ laterNonzeros g n i ↔ x < n ∧ i < x ∧ g x ≠ 0 := by
  rw [laterNonzeros, List.mem_filter, List.mem_range]
  simp only [Bool.and_eq_true, decide_eq_true_eq]

theorem sorted_head_of_mem {L : List ℕ} {j : ℕ} (hs : L.Pairwise (· < ·))
    (hj : j ∈ L) (hmin : ∀ x ∈ L, j ≤ x) : L.head? = some j := by
  cases L with
  | nil => cases hj
  | cons a t =>
    rcases List.mem_cons.mp hj with rfl | hjt
    · rfl
    · have h1 : a < j := (List.pairwise_cons.mp hs).1 j hjt
      have h2 : j ≤ a := hmin a (List.mem_cons_self a t)
      omega

theorem laterNonzeros_head (g : ℕ → ℚ) (n i : ℕ) :
    (laterNonzeros g n i).head? = scanNZ g (i + 1) (n - (i + 1)) := by
  rcases hscan : scanNZ g (i + 1) (n - (i + 1)) with _ | j
  · rw [scanNZ_eq_none_iff] at hscan
    have hnil : laterNonzeros g n i = [] := by
      rw [laterNonzeros, List.filter_eq_nil_iff]
      intro a ha
      have han : a < n := List.mem_range.mp ha
      simp only [Bool.and_eq_true, decide_eq_true_eq, not_and]
      intro hia
      simp only [ne_eq, not_not]
      exact hscan a (by omega) (by omega)
    rw [hnil]
    rfl
  · rw [scanNZ_eq_some_iff] at hscan
    obtain ⟨h1, h2, h3, h4⟩ := hscan
    apply sorted_head_of_mem (laterNonzeros_sorted g n i)
    · rw [mem_laterNonzeros]
      exact ⟨by omega, by omega, h3⟩
    · intro x hx
      rw [mem_laterNonzeros] at hx
      by_contra hlt
      push_neg at hlt
      exact hx.2.2 (h4 x (by omega) hlt)

/-- The source test agrees with the spec's step-by-step description of the
EliminabilityTest, on every row, right-hand side, window and flag. -/
theorem check_eliminatibility_eq_spec (g : ℕ → ℚ) (n : ℕ) (h : ℚ)
    (n_elig : ℕ) (allow_nonzero_b : Bool) :
    check_eliminatibility g n h n_elig allow_nonzero_b =
      check_spec g n h n_elig allow_nonzero_b := by
  rw [check_eliminatibility, check_spec]
  by_cases hb : allow_nonzero_b = false ∧ h ≠ 0
  · rw [if_pos hb, if_pos hb]
  · rw [if_neg hb, if_neg hb, firstEligibleNonzero_eq_scanNZ]
    rcases hi : scanNZ g 0 n_elig with _ | i
    · rfl
    · dsimp only
      rcases hL : laterNonzeros g n i with _ | ⟨j, rest⟩
      · have hnone1 : scanNZ g (i + 1) (n - (i + 1)) = none := by
          rw [← laterNonzeros_head, hL]; rfl
        rw [hnone1]
      · have hhead : scanNZ g (i + 1) (n - (i + 1)) = some j := by
          rw [← laterNonzeros_head, hL]; rfl
        rw [hhead]
        dsimp only
        have hjmem : j ∈ laterNonzeros g n i := by rw [hL]; exact List.mem_cons_self j rest
        have hj := (mem_laterNonzeros g n i j).mp hjmem
        have hpair : (laterNonzeros g n i).Pairwise (· < ·) := laterNonzeros_sorted g n i
        rw [hL] at hpair
        have hjlt : ∀ x ∈ rest, j < x := (List.pairwise_cons.mp hpair).1
        rcases hrest : rest with _ | ⟨x, rest2⟩
        · -- exactly one later nonzero: the trailing scan finds nothing
          have hnone : scanNZ g (j + 1) (n - (j + 1)) = none := by
            rw [scanNZ_eq_none_iff]
            intro u hu1 hu2
            by_contra hgu
            have : u ∈ laterNonzeros g n i := by
              rw [mem_laterNonzeros]
              exact ⟨by omega, by omega, hgu⟩
            rw [hL, hrest] at this
            simp at this
            omega
          rw [if_pos hnone]
        · -- at least two later nonzeros: the trailing scan finds one
          have hxmem : x ∈ laterNonzeros g n i := by
            rw [hL, hrest]
            exact List.mem_cons_of_mem j (List.mem_cons_self x rest2)
          have hx := (mem_laterNonzeros g n i x).mp hxmem
          have hjx : j < x := hjlt x (by rw [hrest]; exact List.mem_cons_self x rest2)
          have hsome : ¬ scanNZ g (j + 1) (n - (j + 1)) = none := by
            intro hall
            rw [scanNZ_eq_none_iff] at hall
            exact hx.2.2 (hall x (by omega) (by omega))
          rw [if_neg hsome]

/-! ## Consequences of a positive eliminability result -/

theorem check_fst_eq_some {g : ℕ → ℚ} {n : ℕ} {h : ℚ} {n_elig : ℕ}
    {allow : Bool} {i : ℕ} {jopt : Option ℕ}
    (hc : check_eliminatibility g n h n_elig allow = (some i, jopt)) :
    scanNZ g 0 n_elig = some i ∧ ¬(allow = false ∧ h ≠ 0) := by
  rw [check_eliminatibility] at hc
  by_cases hb : allow = false ∧ h ≠ 0
  · rw [if_pos hb] at hc
    exact absurd hc (by simp)
  · rw [if_neg hb] at hc
    rcases h0 : scanNZ g 0 n_elig with _ | i0
    · rw [h0] at hc
      exact absurd hc (by simp)
    · rw [h0] at hc
      dsimp only at hc
      rcases h1 : scanNZ g (i0 + 1) (n - (i0 + 1)) with _ | j0
      · rw [h1] at hc
        injection hc with hcf hcs
        injection hcf with hcf
        subst hcf
        exact ⟨rfl, hb⟩
      · rw [h1] at hc
        dsimp only at hc
        by_cases h2 : scanNZ g (j0 + 1) (n - (j0 + 1)) = none
        · rw [if_pos h2] at hc
          injection hc with hcf hcs
          injection hcf with hcf
          subst hcf
          exact ⟨rfl, hb⟩
        · rw [if_neg h2] at hc
          exact absurd hc (by simp)

theorem check_snd_eq_some {g : ℕ → ℚ} {n : ℕ} {h : ℚ} {n_elig : ℕ}
    {allow : Bool} {i j : ℕ}
    (hc : check_eliminatibility g n h n_elig allow = (some i, some j)) :
    scanNZ g (i + 1) (n - (i + 1)) = some j := by
  rw [check_eliminatibility] at hc
  by_cases hb : allow = false ∧ h ≠ 0
  · rw [if_pos hb] at hc
    exact absurd hc (by simp)
  · rw [if_neg hb] at hc
    rcases h0 : scanNZ g 0 n_elig with _ | i0
    · rw [h0] at hc
      exact absurd hc (by simp)
    · rw [h0] at hc
      dsimp only at hc
      rcases h1 : scanNZ g (i0 + 1) (n - (i0 + 1)) with _ | j0
      · rw [h1] at hc
        exact absurd hc (by simp)
      · rw [h1] at hc
        dsimp only at hc
        by_cases h2 : scanNZ g (j0 + 1) (n - (j0 + 1)) = none
        · rw [if_pos h2] at hc
          injection hc with hcf hcs
          injection hcf with hcf
          injection hcs with hcs
          subst hcf
          subst hcs
          exact h1
        · rw [if_neg h2] at hc
          exact absurd hc (by simp)

/-- A positive result names a nonzero eligible coefficient. -/
theorem check_fst_nonzero {g : ℕ → ℚ} {n : ℕ} {h : ℚ} {n_elig : ℕ}
    {allow : Bool} {i : ℕ} {jopt : Option ℕ}
    (hc : check_eliminatibility g n h n_elig allow = (some i, jopt)) :
    g i ≠ 0 ∧ i < n_elig := by
  have h0 := (check_fst_eq_some hc).1
  rw [scanNZ_eq_some_iff] at h0
  exact ⟨h0.2.2.1, by omega⟩

/-- The second index of a two-variable result also has a nonzero
coefficient and lies strictly after the first. -/
theorem check_snd_nonzero {g : ℕ → ℚ} {n : ℕ} {h : ℚ} {n_elig : ℕ}
    {allow : Bool} {i j : ℕ}
    (hc : check_eliminatibility g n h n_elig allow = (some i, some j)) :
    g j ≠ 0 ∧ i < j := by
  have h1 := check_snd_eq_some hc
  rw [scanNZ_eq_some_iff] at h1
  exact ⟨h1.2.2.1, by omega⟩

/-- With `allow_nonzero_b = False`, a row can only match when its
right-hand side is zero. -/
theorem check_h_zero {g : ℕ → ℚ} {n : ℕ} {h : ℚ} {n_elig : ℕ}
    {i : ℕ} {jopt : Option ℕ}
    (hc : check_eliminatibility g n h n_elig false = (some i, jopt)) :
    h = 0 := by
  have hb := (check_fst_eq_some hc).2
  by_contra hne
  exact hb ⟨rfl, hne⟩

/-! ## Equations of one elimination step -/

theorem elimStep_b {n nfree : ℕ} {allow : Bool} {s : PState} {k i : ℕ}
    {jopt : Option ℕ}
    (hc : check_eliminatibility (fun idx => s.A k idx) n (s.b.getD k 0) nfree allow
      = (some i, jopt))
    (r : ℕ) (hr : r < s.b.length) :
    (elimStep n nfree allow s k).b.getD r 0 =
      s.b.getD r 0 - (s.b.getD k 0 / s.A k i) * s.A r i := by
  rw [elimStep, hc]
  dsimp only
  have hr' : r < (s.b.mapIdx fun r v => v - s.b.getD k 0 / s.A k i * s.A r i).length := by
    rw [List.length_mapIdx]; exact hr
  rw [List.getD_eq_getElem _ _ hr', List.getElem_mapIdx, List.getD_eq_getElem _ _ hr]

theorem elimStep_offset {n nfree : ℕ} {allow : Bool} {s : PState} {k i : ℕ}
    {jopt : Option ℕ}
    (hc : check_eliminatibility (fun idx => s.A k idx) n (s.b.getD k 0) nfree allow
      = (some i, jopt)) :
    (elimStep n nfree allow s k).offset =
      s.offset - (s.b.getD k 0 / s.A k i) * s.c i := by
  rw [elimStep, hc]

theorem elimStep_A_col_j {n nfree : ℕ} {allow : Bool} {s : PState} {k i j : ℕ}
    (hc : check_eliminatibility (fun idx => s.A k idx) n (s.b.getD k 0) nfree allow
      = (some i, some j))
    (r : ℕ) :
    (elimStep n nfree allow s k).A r j =
      s.A r j - (s.A k j / s.A k i) * s.A r i := by
  have hij : i < j := (check_snd_nonzero hc).2
  rw [elimStep, hc]
  dsimp only
  rw [if_neg (by omega), if_pos rfl]

theorem elimStep_c_j {n nfree : ℕ} {allow : Bool} {s : PState} {k i j : ℕ}
    (hc : check_eliminatibility (fun idx => s.A k idx) n (s.b.getD k 0) nfree allow
      = (some i, some j)) :
    (elimStep n nfree allow s k).c j =
      s.c j - (s.A k j / s.A k i) * s.c i := by
  have hij : i < j := (check_snd_nonzero hc).2
  rw [elimStep, hc]
  dsimp only
  rw [if_neg (by omega), if_pos rfl]

theorem elimStep_A_col_i {n nfree : ℕ} {allow : Bool} {s : PState} {k i : ℕ}
    {jopt : Option ℕ}
    (hc : check_eliminatibility (fun idx => s.A k idx) n (s.b.getD k 0) nfree allow
      = (some i, jopt))
    (r : ℕ) :
    (elimStep n nfree allow s k).A r i = 0 := by
  rw [elimStep, hc]
  dsimp only
  rw [if_pos rfl]

theorem elimStep_c_i {n nfree : ℕ} {allow : Bool} {s : PState} {k i : ℕ}
    {jopt : Option ℕ}
    (hc : check_eliminatibility (fun idx => s.A k idx) n (s.b.getD k 0) nfree allow
      = (some i, jopt)) :
    (elimStep n nfree allow s k).c i = 0 := by
  rw [elimStep, hc]
  dsimp only
  rw [if_pos rfl]

/-- A step of the pass never revives a zeroed-out column: once column `i`
of the working matrix is all zero, it stays all zero. -/
theorem elimStep_preserves_colzero {n nfree : ℕ} {allow : Bool} {s : PState}
    {k i : ℕ} (hz : ∀ r, s.A r i = 0) (r : ℕ) :
    (elimStep n nfree allow s k).A r i = 0 := by
  rw [elimStep]
  rcases hc : check_eliminatibility (fun idx => s.A k idx) n (s.b.getD k 0) nfree allow
    with ⟨fst, snd⟩
  cases fst with
  | none => exact hz r
  | some i1 =>
    have hne : i ≠ i1 := by
      intro hcontra
      subst hcontra
      exact (check_fst_nonzero hc).1 (hz k)
    dsimp only
    rw [if_neg hne]
    cases snd with
    | none => exact hz r
    | some j1 =>
      have hnej : i ≠ j1 := by
        intro hcontra
        subst hcontra
        exact (check_snd_nonzero hc).1 (hz k)
      dsimp only
      rw [if_neg hnej]
      exact hz r

/-- Folding further elimination steps preserves an all-zero column. -/
theorem foldl_elimStep_preserves_colzero (n nfree : ℕ) (allow : Bool) (i : ℕ) :
    ∀ (ks : List ℕ) (s : PState), (∀ r, s.A r i = 0) →
      ∀ r, (ks.foldl (elimStep n nfree allow) s).A r i = 0 := by
  intro ks
  induction ks with
  | nil => intro s hz r; exact hz r
  | cons k ks ih =>
    intro s hz r
    rw [List.foldl_cons]
    exact ih _ (fun r2 => elimStep_preserves_colzero hz r2) r

/-- A row whose column `i` is zero can never select `i` for elimination. -/
theorem check_fst_ne_of_colzero {s : PState} {n nfree : ℕ} {allow : Bool}
    {k i : ℕ} (hz : ∀ r, s.A r i = 0) :
    (check_eliminatibility (fun idx => s.A k idx) n (s.b.getD k 0) nfree allow).1
      ≠ some i := by
  rcases hc : check_eliminatibility (fun idx => s.A k idx) n (s.b.getD k 0) nfree allow
    with ⟨fst, snd⟩
  cases fst with
  | none => simp
  | some i1 =>
    simp only [ne_eq, Option.some.injEq]
    intro hcontra
    subst hcontra
    exact (check_fst_nonzero hc).1 (hz k)

/-! ## The offset invariant -/

theorem elimStep_offset_allow_false (n nfree : ℕ) (s : PState) (k : ℕ) :
    (elimStep n nfree false s k).offset = s.offset := by
  rw [elimStep]
  rcases hc : check_eliminatibility (fun idx => s.A k idx) n (s.b.getD k 0) nfree false
    with ⟨fst, snd⟩
  cases fst with
  | none => rfl
  | some i =>
    have h0 : s.b.getD k 0 = 0 := check_h_zero hc
    dsimp only
    rw [h0]
    ring

theorem foldl_elimStep_offset_allow_false (n nfree : ℕ) :
    ∀ (ks : List ℕ) (s : PState),
      (ks.foldl (elimStep n nfree false) s).offset = s.offset := by
  intro ks
  induction ks with
  | nil => intro s; rfl
  | cons k ks ih =>
    intro s
    rw [List.foldl_cons, ih, elimStep_offset_allow_false]

theorem pass1_offset_allow_false (M : SeduModel) :
    (pass1 M false).offset = 0 :=
  foldl_elimStep_offset_allow_false M.n M.K.f (List.range M.m) ⟨M.A, M.b, M.c, 0⟩

/-! ## Counting lemmas for the pruning pass -/

theorem three_way_filter_length {α : Type} (p q : α → Bool) (l : List α) :
    (l.filter (fun a => !(p a || q a))).length + (l.filter p).length +
      (l.filter (fun a => !p a && q a)).length = l.length := by
  induction l with
  | nil => rfl
  | cons a t ih =>
    rw [List.filter_cons, List.filter_cons, List.filter_cons]
    cases hp : p a with
    | true =>
      rw [if_neg (by simp [hp]), if_pos (by simp [hp]), if_neg (by simp [hp])]
      simp only [List.length_cons]
      omega
    | false =>
      cases hq : q a with
      | true =>
        rw [if_neg (by simp [hp, hq]), if_neg (by simp [hp]), if_pos (by simp [hp, hq])]
        simp only [List.length_cons]
        omega
      | false =>
        rw [if_pos (by simp [hp, hq]), if_neg (by simp [hp]), if_neg (by simp [hp, hq])]
        simp only [List.length_cons]
        omega

theorem two_way_filter_length {α : Type} (p : α → Bool) (l : List α) :
    (l.filter p).length + (l.filter (fun a => !p a)).length = l.length := by
  induction l with
  | nil => rfl
  | cons a t ih =>
    rw [List.filter_cons, List.filter_cons]
    cases hp : p a with
    | true =>
      rw [if_pos (by simp [hp]), if_neg (by simp [hp])]
      simp only [List.length_cons]
      omega
    | false =>
      rw [if_neg (by simp [hp]), if_pos (by simp [hp])]
      simp only [List.length_cons]
      omega

/-- Every column lands in exactly one bucket of the pruning loop, so the
asserted quantity `len(cols_to_keep) + n_deleted_f + n_deleted_l` always
equals the number of variables of the input. -/
theorem cols_count (A : ℕ → ℕ → ℚ) (c : ℕ → ℚ) (m n f l : ℕ) :
    (colsToKeep A c m n f l).length + nDeletedF A c m n f +
      nDeletedL A c m n f l = n := by
  have h := three_way_filter_length (fun col => freeDelCol A c m f col)
    (fun col => nnegDelCol A c m f l col) (List.range n)
  rw [List.length_range] at h
  exact h

theorem length_filter_le_of_bound (p : ℕ → Bool) (f : ℕ)
    (hp : ∀ a, p a = true → a < f) (n : ℕ) :
    ((List.range n).filter p).length ≤ f := by
  have hnd : ((List.range n).filter p).Nodup := (List.nodup_range n).filter _
  rw [← List.toFinset_card_of_nodup hnd]
  have hsub : ((List.range n).filter p).toFinset ⊆ Finset.range f := by
    intro a ha
    rw [List.mem_toFinset, List.mem_filter] at ha
    exact Finset.mem_range.mpr (hp a ha.2)
  calc ((List.range n).filter p).toFinset.card ≤ (Finset.range f).card :=
        Finset.card_le_card hsub
    _ = f := Finset.card_range f

/-! ## Membership characterizations of the pruning lists -/

theorem freeDelCol_iff (A : ℕ → ℕ → ℚ) (c : ℕ → ℚ) (m f col : ℕ) :
    freeDelCol A c m f col = true ↔
      col < f ∧ c col = 0 ∧ ∀ r < m, A r col = 0 := by
  rw [freeDelCol, colIsZero]
  simp [Bool.and_eq_true, decide_eq_true_eq, and_assoc]

theorem nnegDelCol_iff (A : ℕ → ℕ → ℚ) (c : ℕ → ℚ) (m f l col : ℕ) :
    nnegDelCol A c m f l col = true ↔
      f ≤ col ∧ col < f + l ∧ 0 ≤ c col ∧ ∀ r < m, A r col = 0 := by
  rw [nnegDelCol, colIsZero]
  simp [Bool.and_eq_true, decide_eq_true_eq, and_assoc]

theorem mem_colsToKeep (A : ℕ → ℕ → ℚ) (c : ℕ → ℚ) (m n f l col : ℕ) :
    col ∈ colsToKeep A c m n f l ↔
      col < n ∧ ¬(freeDelCol A c m f col = true ∨ nnegDelCol A c m f l col = true) := by
  rw [colsToKeep, List.mem_filter, List.mem_range]
  simp

theorem mem_rowsToKeep (A : ℕ → ℕ → ℚ) (b : List ℚ) (n m row : ℕ) :
    row ∈ rowsToKeep A b n m ↔
      row < m ∧ ¬(b.getD row 0 = 0 ∧ ∀ cc < n, A row cc = 0) := by
  rw [rowsToKeep, List.mem_filter, List.mem_range, rowIsZero]
  simp
  tauto

theorem colsToKeep_sorted (A : ℕ → ℕ → ℚ) (c : ℕ → ℚ) (m n f l : ℕ) :
    (colsToKeep A c m n f l).Pairwise (· < ·) :=
  (List.pairwise_lt_range n).filter _

theorem rowsToKeep_sorted (A : ℕ → ℕ → ℚ) (b : List ℚ) (n m : ℕ) :
    (rowsToKeep A b n m).Pairwise (· < ·) :=
  (List.pairwise_lt_range m).filter _

/-! ## Positions in a filtered range -/

theorem filter_range_aux (p : ℕ → Bool) :
    ∀ (len s idx : ℕ), idx < ((List.range' s len).filter p).length →
      p (((List.range' s len).filter p).getD idx 0) = true ∧
      s ≤ ((List.range' s len).filter p).getD idx 0 ∧
      ((List.range' s len).filter p).getD idx 0 < s + len ∧
      idx = ((List.range' s ((((List.range' s len).filter p).getD idx 0) - s)).filter p).length := by
  intro len
  induction len with
  | zero =>
    intro s idx h
    simp [List.range'_zero] at h
  | succ len ih =>
    intro s idx h
    cases hp : p s with
    | true =>
      have hfil : (List.range' s (len + 1)).filter p =
          s :: (List.range' (s + 1) len).filter p := by
        rw [List.range'_succ, List.filter_cons, hp]
        simp
      rw [hfil] at h ⊢
      cases idx with
      | zero =>
        have hget : ((s : ℕ) :: (List.range' (s + 1) len).filter p).getD 0 0 = s := rfl
        rw [hget]
        refine ⟨hp, le_rfl, by omega, ?_⟩
        rw [Nat.sub_self]
        simp [List.range'_zero]
      | succ idx =>
        have hget : ((s : ℕ) :: (List.range' (s + 1) len).filter p).getD (idx + 1) 0 =
            ((List.range' (s + 1) len).filter p).getD idx 0 := rfl
        rw [hget]
        have h2 : idx < ((List.range' (s + 1) len).filter p).length := by
          rw [List.length_cons] at h
          omega
        obtain ⟨hq1, hq2, hq3, hq4⟩ := ih (s + 1) idx h2
        set c0 := ((List.range' (s + 1) len).filter p).getD idx 0 with hc0
        refine ⟨hq1, by omega, by omega, ?_⟩
        have hsplit : c0 - s = (c0 - (s + 1)) + 1 := by omega
        rw [hsplit]
        have hfil2 : (List.range' s ((c0 - (s + 1)) + 1)).filter p =
            s :: (List.range' (s + 1) (c0 - (s + 1))).filter p := by
          rw [List.range'_succ, List.filter_cons, hp]
          simp
        rw [hfil2, List.length_cons]
        omega
    | false =>
      have hfil : (List.range' s (len + 1)).filter p =
          (List.range' (s + 1) len).filter p := by
        rw [List.range'_succ, List.filter_cons, hp]
        simp
      rw [hfil] at h ⊢
      obtain ⟨hq1, hq2, hq3, hq4⟩ := ih (s + 1) idx h
      set c0 := ((List.range' (s + 1) len).filter p).getD idx 0 with hc0
      refine ⟨hq1, by omega, by omega, ?_⟩
      have hsplit : c0 - s = (c0 - (s + 1)) + 1 := by omega
      rw [hsplit]
      have hfil2 : (List.range' s ((c0 - (s + 1)) + 1)).filter p =
          (List.range' (s + 1) (c0 - (s + 1))).filter p := by
        rw [List.range'_succ, List.filter_cons, hp]
        simp
      rw [hfil2]
      omega

/-- The element at position `idx` of a filtered `range n` satisfies the
predicate, lies below `n`, and its position equals the number of earlier
indices kept by the filter. -/
theorem filter_range_getD (p : ℕ → Bool) (n idx : ℕ)
    (h : idx < ((List.range n).filter p).length) :
    p (((List.range n).filter p).getD idx 0) = true ∧
    ((List.range n).filter p).getD idx 0 < n ∧
    idx = ((List.range (((List.range n).filter p).getD idx 0)).filter p).length := by
  have h2 : idx < ((List.range' 0 n).filter p).length := by
    rwa [List.range_eq_range'] at h
  obtain ⟨h3, h4, h5, h6⟩ := filter_range_aux p n 0 idx h2
  rw [Nat.sub_zero] at h6
  rw [List.range_eq_range']
  refine ⟨h3, by omega, ?_⟩
  rw [List.range_eq_range']
  exact h6

/-! ## The shape of a Simplifier result -/

theorem cols1_count (M : SeduModel) (allow : Bool) :
    (cols1 M allow).length + ndf1 M allow + ndl1 M allow = M.n :=
  cols_count (pass1 M allow).A (pass1 M allow).c M.m M.n M.K.f M.K.l

/-- The source's closing `assert` fires exactly on inputs with zero
variables. -/
theorem simplify_eq_none_iff (M : SeduModel) (allow : Bool) :
    simplify_sedumi_model M allow = none ↔ M.n = 0 := by
  have hsum := cols1_count M allow
  rw [simplify_sedumi_model]
  by_cases hzero : (cols1 M allow).length + ndf1 M allow + ndl1 M allow = 0
  · rw [if_pos hzero]
    exact iff_of_true rfl (by omega)
  · rw [if_neg hzero]
    exact iff_of_false (by simp) (by omega)

theorem simplify_eq_some (M : SeduModel) (allow : Bool) (hn : M.n ≠ 0) :
    simplify_sedumi_model M allow =
      some (prunedModel M allow, (pass1 M allow).offset) := by
  have hsum := cols1_count M allow
  rw [simplify_sedumi_model, if_neg (by omega)]

theorem simplify_isSome_n_pos (M : SeduModel) (allow : Bool)
    (hs : (simplify_sedumi_model M allow).isSome) : M.n ≠ 0 := by
  intro h0
  rw [(simplify_eq_none_iff M allow).mpr h0] at hs
  exact absurd hs (by simp)

theorem simplify_get (M : SeduModel) (allow : Bool)
    (hs : (simplify_sedumi_model M allow).isSome) :
    (simplify_sedumi_model M allow).get hs =
      (prunedModel M allow, (pass1 M allow).offset) := by
  have heq := simplify_eq_some M allow (simplify_isSome_n_pos M allow hs)
  simp only [heq, Option.get_some]

/-- A step of the pass never revives a zeroed-out objective entry either,
as long as the matching column stays all zero. -/
theorem elimStep_preserves_czero {n nfree : ℕ} {allow : Bool} {s : PState}
    {k i : ℕ} (hz : ∀ r, s.A r i = 0) (hc0 : s.c i = 0) :
    (elimStep n nfree allow s k).c i = 0 := by
  rw [elimStep]
  rcases hc : check_eliminatibility (fun idx => s.A k idx) n (s.b.getD k 0) nfree allow
    with ⟨fst, snd⟩
  cases fst with
  | none => exact hc0
  | some i1 =>
    have hne : i ≠ i1 := by
      intro hcontra
      subst hcontra
      exact (check_fst_nonzero hc).1 (hz k)
    dsimp only
    rw [if_neg hne]
    cases snd with
    | none => exact hc0
    | some j1 =>
      have hnej : i ≠ j1 := by
        intro hcontra
        subst hcontra
        exact (check_snd_nonzero hc).1 (hz k)
      dsimp only
      rw [if_neg hnej]
      exact hc0

theorem foldl_elimStep_preserves_col_and_czero (n nfree : ℕ) (allow : Bool)
    (i : ℕ) :
    ∀ (ks : List ℕ) (s : PState), (∀ r, s.A r i = 0) → s.c i = 0 →
      (∀ r, (ks.foldl (elimStep n nfree allow) s).A r i = 0) ∧
      (ks.foldl (elimStep n nfree allow) s).c i = 0 := by
  intro ks
  induction ks with
  | nil => intro s hz hc0; exact ⟨hz, hc0⟩
  | cons k ks ih =>
    intro s hz hc0
    rw [List.foldl_cons]
    exact ih _ (fun r => elimStep_preserves_colzero hz r)
      (elimStep_preserves_czero hz hc0)

/-! ## The claims -/

/-- Claim C1: in the row-driven elimination pass, a row `k` matched with
eligible index `i` (and optional second index `j`) updates, with
`factor = b[k]/A[k,i]`, the right-hand side `b := b + (-factor)·A[:,i]` and
the offset by `(-factor)·c[i]`; in the two-variable case, with
`factor2 = A[k,j]/A[k,i]`, it updates `A[:,j] := A[:,j] + (-factor2)·A[:,i]`
and `c[j] := c[j] + (-factor2)·c[i]`; it then zeroes out column `i` of `A`
and entry `i` of `c`, and variable `i` is never re-selected by any later
row in the same pass. -/
theorem claim_C1 (n nfree : ℕ) (allow : Bool) (s : PState) (k i : ℕ)
    (jopt : Option ℕ)
    (hc : check_eliminatibility (fun idx => s.A k idx) n (s.b.getD k 0) nfree allow
      = (some i, jopt)) :
    (∀ r < s.b.length, (elimStep n nfree allow s k).b.getD r 0 =
      s.b.getD r 0 - (s.b.getD k 0 / s.A k i) * s.A r i) ∧
    (elimStep n nfree allow s k).offset =
      s.offset - (s.b.getD k 0 / s.A k i) * s.c i ∧
    (∀ j, jopt = some j →
      (∀ r, (elimStep n nfree allow s k).A r j =
        s.A r j - (s.A k j / s.A k i) * s.A r i) ∧
      (elimStep n nfree allow s k).c j =
        s.c j - (s.A k j / s.A k i) * s.c i) ∧
    (∀ r, (elimStep n nfree allow s k).A r i = 0) ∧
    (elimStep n nfree allow s k).c i = 0 ∧
    (∀ (laterRows : List ℕ) (k2 : ℕ),
      (check_eliminatibility
        (fun idx =>
          (laterRows.foldl (elimStep n nfree allow) (elimStep n nfree allow s k)).A k2 idx)
        n
        ((laterRows.foldl (elimStep n nfree allow) (elimStep n nfree allow s k)).b.getD k2 0)
        nfree allow).1 ≠ some i) := by
  refine ⟨fun r hr => elimStep_b hc r hr, elimStep_offset hc, ?_,
    elimStep_A_col_i hc, elimStep_c_i hc, ?_⟩
  · intro j hj
    subst hj
    exact ⟨elimStep_A_col_j hc, elimStep_c_j hc⟩
  · intro laterRows k2
    have hz := foldl_elimStep_preserves_colzero n nfree allow i laterRows _
      (elimStep_A_col_i hc)
    exact check_fst_ne_of_colzero hz

/-- Witness for C1: on the concrete state of `modelW`, row 0 matches with
`(i, j) = (0, 1)` and the step zeroes column 0 of `A` and entry 0 of `c`. -/
theorem claim_C1_witness :
    check_eliminatibility (fun idx => stateW.A 0 idx) 2 (stateW.b.getD 0 0) 1 false
        = (some 0, some 1) ∧
    (∀ r, (elimStep 2 1 false stateW 0).A r 0 = 0) ∧
    (elimStep 2 1 false stateW 0).c 0 = 0 :=
  ⟨by decide, (claim_C1 2 1 false stateW 0 0 (some 1) (by decide)).2.2.2.1,
    (claim_C1 2 1 false stateW 0 0 (some 1) (by decide)).2.2.2.2.1⟩

/-- Claim C2: `check_eliminatibility` behaves exactly as specified — it
rejects a nonzero right-hand side unless allowed, takes the first nonzero
coefficient among the eligible window (no match if there is none),
classifies the row by whether zero, exactly one, or two-or-more nonzero
coefficients follow that first candidate, never retrying a later eligible
index; and on `g = [0,2,-1,0]`, `h = 0`, `n_elig = 2` it returns `(1, 2)`. -/
theorem claim_C2 :
    (∀ (g : ℕ → ℚ) (n : ℕ) (h : ℚ) (n_elig : ℕ) (allow : Bool),
      check_eliminatibility g n h n_elig allow = check_spec g n h n_elig allow) ∧
    check_eliminatibility (vecOf [0, 2, -1, 0]) 4 0 2 false = (some 1, some 2) :=
  ⟨check_eliminatibility_eq_spec, by decide⟩

/-- Claim C3: with `allow_nonzero_b = False`, `simplify_sedumi_model`
returns an offset exactly equal to 0, on every input on which it returns. -/
theorem claim_C3 (M : SeduModel)
    (hs : (simplify_sedumi_model M false).isSome) :
    ((simplify_sedumi_model M false).get hs).2 = 0 := by
  rw [simplify_get M false hs]
  exact pass1_offset_allow_false M

/-- Witness for C3 at a concrete model. -/
theorem claim_C3_witness :
    ((simplify_sedumi_model modelC9 false).get (by decide)).2 = 0 :=
  claim_C3 modelC9 (by decide)

/-- Claim C4 (amended): `simplify_sedumi_model` mutates the caller's
arrays in placerather than working on private copies: whenever the first
constraint row of the input matches with index `i`, column `i` of the
caller's `A` and entry `i` of the caller's `c` read 0 after the call. -/
theorem claim_C4 (M : SeduModel) (allow : Bool) (i : ℕ) (jopt : Option ℕ)
    (hm : 0 < M.m)
    (hc : check_eliminatibility (fun idx => M.A 0 idx) M.n (M.b.getD 0 0) M.K.f allow
      = (some i, jopt)) :
    (∀ r, (callerArraysAfter M allow).A r i = 0) ∧
    (callerArraysAfter M allow).c i = 0 := by
  have hrange : List.range M.m = 0 :: List.range' 1 (M.m - 1) := by
    rcases hm' : M.m with _ | t
    · omega
    · rw [List.range_eq_range', List.range'_succ]
      norm_num
  have hpass : callerArraysAfter M allow =
      (List.range' 1 (M.m - 1)).foldl (elimStep M.n M.K.f allow)
        (elimStep M.n M.K.f allow ⟨M.A, M.b, M.c, 0⟩ 0) := by
    rw [callerArraysAfter, pass1, hrange]
    rfl
  rw [hpass]
  exact foldl_elimStep_preserves_col_and_czero M.n M.K.f allow i _ _
    (elimStep_A_col_i hc) (elimStep_c_i hc)

/-- Witness for C4 at the concrete model `modelW`. -/
theorem claim_C4_witness :
    (∀ r, (callerArraysAfter modelW false).A r 0 = 0) ∧
    (callerArraysAfter modelW false).c 0 = 0 :=
  claim_C4 modelW false 0 (some 1) (by decide) (by decide)

/-- Counterexample to C4 as stated: the caller's matrix `A` of `modelW` is
changed by the call — entry `(0,0)` was `2` and reads `0` afterwards
(the eliminated column is zeroed in place). -/
theorem claim_C4_counterexample :
    modelW.A 0 0 = 2 ∧ (callerArraysAfter modelW false).A 0 0 = 0 := by
  constructor
  · decide
  · have hc : check_eliminatibility (fun idx => modelW.A 0 idx) modelW.n
        (modelW.b.getD 0 0) modelW.K.f false = (some 0, some 1) := by decide
    exact (claim_C4 modelW false 0 (some 1) (by decide) hc).1 0

/-- Claim C5 (amended): the closing `assert` of `simplify_sedumi_model`
fires exactly when the input problem has zero variables; a normal return
does not guarantee a surviving variable. -/
theorem claim_C5 (M : SeduModel) (allow : Bool) :
    simplify_sedumi_model M allow = none ↔ M.n = 0 :=
  simplify_eq_none_iff M allow

/-- Counterexample to C5 as stated: on `modelC5` the reduction leaves zero
surviving variables in all three categories, yet `simplify_sedumi_model`
returns normally with an empty problem instead of failing. -/
theorem claim_C5_counterexample :
    (simplify_sedumi_model modelC5 false).isSome = true ∧
    ((simplify_sedumi_model modelC5 false).get (by decide)).1.n = 0 ∧
    ((simplify_sedumi_model modelC5 false).get (by decide)).1.K.f = 0 ∧
    ((simplify_sedumi_model modelC5 false).get (by decide)).1.K.l = 0 ∧
    ((simplify_sedumi_model modelC5 false).get (by decide)).1.K.s = [] :=
  ⟨by decide, by decide, by decide, by decide, by decide⟩

theorem map_range_getD (f : ℕ → ℚ) (len r : ℕ) (hr : r < len) :
    ((List.range len).map f).getD r 0 = f r := by
  have hlen : r < ((List.range len).map f).length := by simp [hr]
  rw [List.getD_eq_getElem _ _ hlen]
  simp

/-- Claim C6: for inputs with no SOC blocks, the expansion step builds the
system with variable layout `[original x | inequality slacks | SDP slacks]`:
row blocks `[A | 0 | 0]` with right-hand side `b`, `[G_l | I | 0]` with
right-hand side `h_l`, `[G_s | 0 | I]` with right-hand side `h_s`, objective
`c* = [c, 0, 0]` and cone `K* = {f: n_x, l: dims.l, s: dims.s}`; for inputs
with a nonempty `dims.q`, `make_sedumi_format_problem` fails immediately
with the unsupported-cone error and produces no partial result. -/
theorem claim_C6 (P : SourceProblem) :
    (P.dims.q ≠ [] →
      make_sedumi_format_problem P true = .error .unsupportedCone ∧
      make_sedumi_format_problem P false = .error .unsupportedCone) ∧
    (expandProblem P).K = ⟨P.nx, P.dims.l, P.dims.s⟩ ∧
    (expandProblem P).m = P.ne + P.dims.l + sumSq P.dims.s ∧
    (expandProblem P).n = P.nx + P.dims.l + sumSq P.dims.s ∧
    (∀ cc, (expandProblem P).c cc = if cc < P.nx then P.c cc else 0) ∧
    (∀ r, r < P.ne →
      (∀ cc, cc < P.nx → (expandProblem P).A r cc = P.A r cc) ∧
      (∀ cc, P.nx ≤ cc → (expandProblem P).A r cc = 0) ∧
      (expandProblem P).b.getD r 0 = P.b r) ∧
    (∀ r, P.ne ≤ r → r < P.ne + P.dims.l →
      (∀ cc, cc < P.nx → (expandProblem P).A r cc = P.G (r - P.ne) cc) ∧
      (∀ cc, P.nx ≤ cc → cc < P.nx + P.dims.l →
        (expandProblem P).A r cc = (if cc - P.nx = r - P.ne then 1 else 0)) ∧
      (∀ cc, P.nx + P.dims.l ≤ cc → (expandProblem P).A r cc = 0) ∧
      (expandProblem P).b.getD r 0 = P.h (r - P.ne)) ∧
    (∀ r, P.ne + P.dims.l ≤ r → r < P.ne + P.dims.l + sumSq P.dims.s →
      (∀ cc, cc < P.nx → (expandProblem P).A r cc = P.G (r - P.ne) cc) ∧
      (∀ cc, P.nx ≤ cc → cc < P.nx + P.dims.l → (expandProblem P).A r cc = 0) ∧
      (∀ cc, P.nx + P.dims.l ≤ cc → cc < P.nx + P.dims.l + sumSq P.dims.s →
        (expandProblem P).A r cc =
          (if cc - (P.nx + P.dims.l) = r - (P.ne + P.dims.l) then 1 else 0)) ∧
      (expandProblem P).b.getD r 0 = P.h (r - P.ne)) := by
  refine ⟨?_, rfl, rfl, rfl, fun cc => rfl, ?_, ?_, ?_⟩
  · intro hq
    constructor <;> rw [make_sedumi_format_problem, if_pos hq]
  · intro r hr
    refine ⟨?_, ?_, ?_⟩
    · intro cc hcc
      simp only [expandProblem, writeBlock]
      rw [if_neg (by omega), if_neg (by omega), if_neg (by omega),
        if_neg (by omega), if_pos (by omega)]
      simp
    · intro cc hcc
      simp only [expandProblem, writeBlock]
      rw [if_neg (by omega), if_neg (by omega), if_neg (by omega),
        if_neg (by omega), if_neg (by omega)]
    · simp only [expandProblem]
      rw [map_range_getD _ _ r (by omega), if_pos hr]
  · intro r hr1 hr2
    refine ⟨?_, ?_, ?_, ?_⟩
    · intro cc hcc
      simp only [expandProblem, writeBlock]
      rw [if_neg (by omega), if_neg (by omega), if_neg (by omega),
        if_pos (by omega)]
      simp
    · intro cc hcc1 hcc2
      simp only [expandProblem, writeBlock, eye]
      rw [if_neg (by omega), if_neg (by omega), if_pos (by omega)]
      by_cases hdiag : cc - P.nx = r - P.ne
      · rw [if_pos (by omega), if_pos hdiag]
      · rw [if_neg (by omega), if_neg hdiag]
    · intro cc hcc
      simp only [expandProblem, writeBlock]
      rw [if_neg (by omega), if_neg (by omega), if_neg (by omega),
        if_neg (by omega), if_neg (by omega)]
    · simp only [expandProblem]
      rw [map_range_getD _ _ r (by omega), if_neg (by omega)]
  · intro r hr1 hr2
    refine ⟨?_, ?_, ?_, ?_⟩
    · intro cc hcc
      simp only [expandProblem, writeBlock]
      rw [if_neg (by omega), if_pos (by omega)]
      have harg : P.dims.l + (r - (P.ne + P.dims.l)) = r - P.ne := by omega
      simp [harg]
    · intro cc hcc1 hcc2
      simp only [expandProblem, writeBlock]
      rw [if_neg (by omega), if_neg (by omega), if_neg (by omega),
        if_neg (by omega), if_neg (by omega)]
    · intro cc hcc1 hcc2
      simp only [expandProblem, writeBlock, eye]
      rw [if_pos (by omega)]
      by_cases hdiag : cc - (P.nx + P.dims.l) = r - (P.ne + P.dims.l)
      · rw [if_pos (by omega), if_pos hdiag]
      · rw [if_neg (by omega), if_neg hdiag]
    · simp only [expandProblem]
      rw [map_range_getD _ _ r (by omega), if_neg (by omega)]

/-- Witness for C6 at the concrete `srcW`/`srcQ` problems. -/
theorem claim_C6_witness :
    (expandProblem srcW).A 0 0 = srcW.A 0 0 ∧
    (expandProblem srcW).A 1 1 = 1 ∧
    (expandProblem srcW).A 2 2 = 1 ∧
    (expandProblem srcW).b.getD 2 0 = srcW.h 1 ∧
    make_sedumi_format_problem srcQ true = .error .unsupportedCone := by
  obtain ⟨hq, hK, hm, hn, hc, heq, hineq, hsdp⟩ := claim_C6 srcW
  refine ⟨(heq 0 (by decide)).1 0 (by decide), ?_, ?_, ?_, ?_⟩
  · have h2 := (hineq 1 (by decide) (by decide)).2.1 1 (by decide) (by decide)
    simpa using h2
  · have h3 := (hsdp 2 (by decide) (by decide)).2.2.1 2 (by decide) (by decide)
    simpa using h3
  · have h4 := (hsdp 2 (by decide) (by decide)).2.2.2
    simpa using h4
  · exact ((claim_C6 srcQ).1 (by decide)).1

/-! ## Shapes of converter results -/

theorem simplify_some_eq (M : SeduModel) (allow : Bool) (r : SeduModel × ℚ)
    (h : simplify_sedumi_model M allow = some r) :
    r = (prunedModel M allow, (pass1 M allow).offset) := by
  have hn : M.n ≠ 0 := by
    intro h0
    rw [(simplify_eq_none_iff M allow).mpr h0] at h
    exact absurd h (by simp)
  rw [simplify_eq_some M allow hn] at h
  injection h with h
  exact h.symm

theorem simplify_snd_offset_zero (M M1 : SeduModel) (off : ℚ)
    (h : simplify_sedumi_model M false = some (M1, off)) : off = 0 := by
  have he := simplify_some_eq M false (M1, off) h
  have h2 : off = (pass1 M false).offset := congrArg Prod.snd he
  rw [h2]
  exact pass1_offset_allow_false M

theorem make_ok_shape (P : SourceProblem) (simplify : Bool) (r : SeduModel × ℚ)
    (h : make_sedumi_format_problem P simplify = .ok r) :
    simplify = true ∧ P.dims.q = [] ∧
    ∃ M1 off1, simplify_sedumi_model (expandProblem P) false = some (M1, off1) ∧
      simplify_sedumi_model M1 false = some r := by
  rw [make_sedumi_format_problem] at h
  by_cases hq : P.dims.q ≠ []
  · rw [if_pos hq] at h
    exact absurd h (by simp)
  · rw [if_neg hq] at h
    cases simplify with
    | false => exact absurd h (by simp)
    | true =>
      dsimp only at h
      rcases h1 : simplify_sedumi_model (expandProblem P) false with _ | p1
      · rw [h1] at h
        exact absurd h (by simp)
      · obtain ⟨M1, off1⟩ := p1
        rw [h1] at h
        dsimp only at h
        by_cases hoff : off1 = 0
        · rw [if_pos hoff] at h
          rcases h2 : simplify_sedumi_model M1 false with _ | r2
          · rw [h2] at h
            exact absurd h (by simp)
          · rw [h2] at h
            injection h with h
            subst h
            exact ⟨rfl, not_not.mp hq, M1, off1, rfl, h2⟩
        · rw [if_neg hoff] at h
          exact absurd h (by simp)

/-! ## Dimension bookkeeping -/

theorem toOption_get_ok {α β : Type} (x : Except β α) (r : α) (hx : x = .ok r)
    (hs : x.toOption.isSome) : x.toOption.get hs = r := by
  subst hx
  rfl

theorem length_filter_le_of_interval (p : ℕ → Bool) (f l : ℕ)
    (hp : ∀ a, p a = true → f ≤ a ∧ a < f + l) (n : ℕ) :
    ((List.range n).filter p).length ≤ l := by
  have hnd : ((List.range n).filter p).Nodup := (List.nodup_range n).filter _
  rw [← List.toFinset_card_of_nodup hnd]
  have hsub : ((List.range n).filter p).toFinset ⊆ Finset.Ico f (f + l) := by
    intro a ha
    rw [List.mem_toFinset, List.mem_filter] at ha
    obtain ⟨ha1, ha2⟩ := hp a ha.2
    exact Finset.mem_Ico.mpr ⟨ha1, ha2⟩
  calc ((List.range n).filter p).toFinset.card ≤ (Finset.Ico f (f + l)).card :=
        Finset.card_le_card hsub
    _ = l := by rw [Nat.card_Ico]; omega

theorem ndf1_le (M : SeduModel) (allow : Bool) : ndf1 M allow ≤ M.K.f := by
  rw [ndf1, nDeletedF]
  exact length_filter_le_of_bound _ M.K.f
    (fun a ha => ((freeDelCol_iff _ _ _ _ _).mp ha).1) M.n

theorem ndl1_le (M : SeduModel) (allow : Bool) : ndl1 M allow ≤ M.K.l := by
  rw [ndl1, nDeletedL]
  refine length_filter_le_of_interval _ M.K.f M.K.l (fun a ha => ?_) M.n
  rw [Bool.and_eq_true] at ha
  have h2 := (nnegDelCol_iff _ _ _ _ _ _).mp ha.2
  exact ⟨h2.1, h2.2.1⟩

theorem prunedModel_m_eq_b_length (M : SeduModel) (allow : Bool) :
    (prunedModel M allow).m = (prunedModel M allow).b.length := by
  simp [prunedModel]

theorem prunedModel_dims (M : SeduModel) (allow : Bool)
    (hdim : M.n = M.K.f + M.K.l + sumSq M.K.s) :
    (prunedModel M allow).n = (prunedModel M allow).K.f +
      (prunedModel M allow).K.l + sumSq (prunedModel M allow).K.s := by
  show (cols1 M allow).length =
    (M.K.f - ndf1 M allow) + (M.K.l - ndl1 M allow) + sumSq M.K.s
  have hsum := cols1_count M allow
  have h1 := ndf1_le M allow
  have h2 := ndl1_le M allow
  omega

theorem expand_dims (P : SourceProblem) :
    (expandProblem P).n = (expandProblem P).K.f + (expandProblem P).K.l +
      sumSq (expandProblem P).K.s := rfl

theorem expand_m_eq_b_length (P : SourceProblem) :
    (expandProblem P).m = (expandProblem P).b.length := by
  simp [expandProblem]

/-- Claim C7: dimension consistency — every problem returned by
`make_sedumi_format_problem` satisfies `n = K.f + K.l + Σ s²` and has as
many rows of `A` as entries of `b`, and `simplify_sedumi_model` preserves
that property: any return from an input satisfying the equation satisfies
it again (the row/right-hand-side equality holds for every return). -/
theorem claim_C7 :
    (∀ (P : SourceProblem) (simplify : Bool)
      (hs : (make_sedumi_format_problem P simplify).toOption.isSome),
      ((make_sedumi_format_problem P simplify).toOption.get hs).1.n =
        ((make_sedumi_format_problem P simplify).toOption.get hs).1.K.f +
        ((make_sedumi_format_problem P simplify).toOption.get hs).1.K.l +
        sumSq ((make_sedumi_format_problem P simplify).toOption.get hs).1.K.s ∧
      ((make_sedumi_format_problem P simplify).toOption.get hs).1.m =
        ((make_sedumi_format_problem P simplify).toOption.get hs).1.b.length) ∧
    (∀ (M : SeduModel) (allow : Bool) (hs : (simplify_sedumi_model M allow).isSome),
      (M.n = M.K.f + M.K.l + sumSq M.K.s →
        ((simplify_sedumi_model M allow).get hs).1.n =
          ((simplify_sedumi_model M allow).get hs).1.K.f +
          ((simplify_sedumi_model M allow).get hs).1.K.l +
          sumSq ((simplify_sedumi_model M allow).get hs).1.K.s) ∧
      ((simplify_sedumi_model M allow).get hs).1.m =
        ((simplify_sedumi_model M allow).get hs).1.b.length) := by
  constructor
  · intro P simplify hs
    obtain ⟨r, hmk⟩ : ∃ r, make_sedumi_format_problem P simplify = .ok r := by
      rcases hE : make_sedumi_format_problem P simplify with e | r
      · rw [hE] at hs
        exact absurd hs (by simp [Except.toOption])
      · exact ⟨r, rfl⟩
    obtain ⟨-, hq, M1, off1, h1, h2⟩ := make_ok_shape P simplify r hmk
    have eM1 : M1 = prunedModel (expandProblem P) false :=
      congrArg Prod.fst (simplify_some_eq _ _ _ h1)
    have er : r = (prunedModel M1 false, (pass1 M1 false).offset) :=
      simplify_some_eq _ _ _ h2
    have hd1 : M1.n = M1.K.f + M1.K.l + sumSq M1.K.s := by
      rw [eM1]
      exact prunedModel_dims (expandProblem P) false (expand_dims P)
    have hget : (make_sedumi_format_problem P simplify).toOption.get hs = r :=
      toOption_get_ok _ r hmk hs
    rw [hget, er]
    exact ⟨prunedModel_dims M1 false hd1, prunedModel_m_eq_b_length M1 false⟩
  · intro M allow hs
    have hget := simplify_get M allow hs
    rw [hget]
    exact ⟨fun hdim => prunedModel_dims M allow hdim,
      prunedModel_m_eq_b_length M allow⟩

/-- Witness for C7 at the concrete model `model9`. -/
theorem claim_C7_witness :
    ((simplify_sedumi_model model9 false).get (by decide)).1.n =
      ((simplify_sedumi_model model9 false).get (by decide)).1.K.f +
      ((simplify_sedumi_model model9 false).get (by decide)).1.K.l +
      sumSq ((simplify_sedumi_model model9 false).get (by decide)).1.K.s :=
  ((claim_C7).2 model9 false (by decide)).1 (by decide)

/-- Claim C10: the unsimplified path of `make_sedumi_format_problem` can
never return a result — on inputs passing the cone check it fails with the
unbound-variable (`NameError`) failure, since `obj_cst` is only assigned
inside the `simplify` branch; with `simplify=True` it always applies
`simplify_sedumi_model` a second time to the first call's output and
returns that second call's full result, whose offset `write_sedumi_model`
asserts to be 0. -/
theorem claim_C10 :
    (∀ (P : SourceProblem) (r : SeduModel × ℚ),
      make_sedumi_format_problem P false ≠ .ok r) ∧
    (∀ P : SourceProblem, P.dims.q = [] →
      make_sedumi_format_problem P false = .error .nameError) ∧
    (∀ (P : SourceProblem) (M1 : SeduModel) (off : ℚ), P.dims.q = [] →
      simplify_sedumi_model (expandProblem P) false = some (M1, off) →
      make_sedumi_format_problem P true =
        (match simplify_sedumi_model M1 false with
         | none => .error .assertionFailure
         | some r => .ok r)) ∧
    (∀ (P : SourceProblem) (M : SeduModel) (off : ℚ),
      make_sedumi_format_problem P true = .ok (M, off) →
      write_sedumi_model P true =
        (if off = 0 then .ok M else .error .assertionFailure)) := by
  refine ⟨?_, ?_, ?_, ?_⟩
  · intro P r h
    exact absurd (make_ok_shape P false r h).1 (by simp)
  · intro P hq
    rw [make_sedumi_format_problem, if_neg (by simp [hq])]
    rfl
  · intro P M1 off hq hsimp
    rw [make_sedumi_format_problem, if_neg (by simp [hq])]
    dsimp only
    rw [hsimp]
    dsimp only
    rw [if_pos (simplify_snd_offset_zero _ _ _ hsimp)]
    rfl
  · intro P M off h
    rw [write_sedumi_model, h]

/-- Witness exercising C10 on concrete inputs. -/
theorem claim_C10_witness :
    make_sedumi_format_problem srcW false = .error .nameError :=
  (claim_C10).2.1 srcW (by decide)

/-! ## Characterizing the pruning pass -/

/-- A column of the pruning pass is dropped exactly when one of the two
deletable classifications fires. -/
theorem dropped_iff (M : SeduModel) (allow : Bool) (col : ℕ) (hcol : col < M.n) :
    col ∉ cols1 M allow ↔
      (freeDelCol (pass1 M allow).A (pass1 M allow).c M.m M.K.f col = true ∨
       nnegDelCol (pass1 M allow).A (pass1 M allow).c M.m M.K.f M.K.l col = true) := by
  rw [cols1, mem_colsToKeep]
  constructor
  · intro hn
    by_contra hcon
    exact hn ⟨hcol, hcon⟩
  · intro hd hmem
    exact hmem.2 hd

/-- Claim C8: in the pruning pass, a column is dropped iff its entries are
all zero and it is either a free column with objective coefficient exactly
0 or a nonnegative column with objective coefficient `≥ 0`; PSD-slot
columns are never dropped; a row is dropped iff its coefficients are all
zero and its right-hand side is zero (rows `0 = nonzero` are kept);
surviving rows and columns keep their original relative order; and the
cone counts `f` and `l` are decremented by exactly the number of dropped
free and nonnegative columns while `s` is unchanged. -/
theorem claim_C8 (M : SeduModel) (allow : Bool) :
    (∀ col, col < M.n →
      (col ∉ cols1 M allow ↔
        ((∀ r < M.m, (pass1 M allow).A r col = 0) ∧
         ((col < M.K.f ∧ (pass1 M allow).c col = 0) ∨
          (M.K.f ≤ col ∧ col < M.K.f + M.K.l ∧ 0 ≤ (pass1 M allow).c col))))) ∧
    (∀ col, M.K.f + M.K.l ≤ col → col < M.n → col ∈ cols1 M allow) ∧
    (∀ row, row < M.m →
      (row ∉ rows1 M allow ↔
        ((pass1 M allow).b.getD row 0 = 0 ∧
         ∀ cc < M.n, (pass1 M allow).A row cc = 0))) ∧
    (cols1 M allow).Pairwise (· < ·) ∧
    (rows1 M allow).Pairwise (· < ·) ∧
    (prunedModel M allow).K.f =
      M.K.f - ((List.range M.n).filter
        (fun col => decide (col < M.K.f) && !decide (col ∈ cols1 M allow))).length ∧
    (prunedModel M allow).K.l =
      M.K.l - ((List.range M.n).filter
        (fun col => decide (M.K.f ≤ col) && decide (col < M.K.f + M.K.l) &&
          !decide (col ∈ cols1 M allow))).length ∧
    (prunedModel M allow).K.s = M.K.s := by
  refine ⟨?_, ?_, ?_, colsToKeep_sorted _ _ _ _ _ _, rowsToKeep_sorted _ _ _ _, ?_, ?_, rfl⟩
  · intro col hcol
    rw [dropped_iff M allow col hcol, freeDelCol_iff, nnegDelCol_iff]
    constructor
    · rintro (⟨h1, h2, h3⟩ | ⟨h1, h2, h3, h4⟩)
      · exact ⟨h3, Or.inl ⟨h1, h2⟩⟩
      · exact ⟨h4, Or.inr ⟨h1, h2, h3⟩⟩
    · rintro ⟨hz, ⟨h1, h2⟩ | ⟨h1, h2, h3⟩⟩
      · exact Or.inl ⟨h1, h2, hz⟩
      · exact Or.inr ⟨h1, h2, h3, hz⟩
  · intro col hge hcol
    rw [cols1, mem_colsToKeep]
    refine ⟨hcol, ?_⟩
    rintro (hfd | hnd)
    · exact absurd ((freeDelCol_iff _ _ _ _ _).mp hfd).1 (by omega)
    · exact absurd ((nnegDelCol_iff _ _ _ _ _ _).mp hnd).2.1 (by omega)
  · intro row hrow
    rw [rows1, mem_rowsToKeep]
    constructor
    · intro hn
      by_contra hcon
      exact hn ⟨hrow, hcon⟩
    · intro hd hmem
      exact hmem.2 hd
  · have hcong : ∀ col ∈ List.range M.n,
        (decide (col < M.K.f) && !decide (col ∈ cols1 M allow)) =
        freeDelCol (pass1 M allow).A (pass1 M allow).c M.m M.K.f col := by
      intro col hcolmem
      rw [List.mem_range] at hcolmem
      by_cases hf : freeDelCol (pass1 M allow).A (pass1 M allow).c M.m M.K.f col = true
      · have hfree := (freeDelCol_iff _ _ _ _ _).mp hf
        have hdrop : col ∉ cols1 M allow :=
          (dropped_iff M allow col hcolmem).mpr (Or.inl hf)
        rw [hf]
        simp [hfree.1, hdrop]
      · by_cases hn : nnegDelCol (pass1 M allow).A (pass1 M allow).c M.m M.K.f M.K.l col = true
        · have hnn := (nnegDelCol_iff _ _ _ _ _ _).mp hn
          rw [Bool.not_eq_true] at hf
          rw [hf]
          simp [show ¬(col < M.K.f) by omega]
        · have hkeep : col ∈ cols1 M allow := by
            by_contra hd
            rcases (dropped_iff M allow col hcolmem).mp hd with h | h
            · exact hf h
            · exact hn h
          rw [Bool.not_eq_true] at hf
          rw [hf]
          simp [hkeep]
    show M.K.f - ndf1 M allow = M.K.f - _
    congr 1
    rw [ndf1, nDeletedF, List.filter_congr hcong]
  · have hcong : ∀ col ∈ List.range M.n,
        (decide (M.K.f ≤ col) && decide (col < M.K.f + M.K.l) &&
          !decide (col ∈ cols1 M allow)) =
        (!freeDelCol (pass1 M allow).A (pass1 M allow).c M.m M.K.f col &&
          nnegDelCol (pass1 M allow).A (pass1 M allow).c M.m M.K.f M.K.l col) := by
      intro col hcolmem
      rw [List.mem_range] at hcolmem
      by_cases hn : nnegDelCol (pass1 M allow).A (pass1 M allow).c M.m M.K.f M.K.l col = true
      · have hnn := (nnegDelCol_iff _ _ _ _ _ _).mp hn
        have hf : freeDelCol (pass1 M allow).A (pass1 M allow).c M.m M.K.f col = false := by
          rw [← Bool.not_eq_true]
          intro hcon
          exact absurd ((freeDelCol_iff _ _ _ _ _).mp hcon).1 (by omega)
        have hdrop : col ∉ cols1 M allow :=
          (dropped_iff M allow col hcolmem).mpr (Or.inr hn)
        rw [hn, hf]
        simp [hnn.1, hnn.2.1, hdrop]
      · rw [Bool.not_eq_true] at hn
        rw [hn]
        by_cases hmem : col ∈ cols1 M allow
        · simp [hmem]
        · rcases (dropped_iff M allow col hcolmem).mp hmem with h | h
          · have hfree := (freeDelCol_iff _ _ _ _ _).mp h
            simp [show ¬(M.K.f ≤ col) by omega]
          · rw [hn] at h
            exact absurd h (by simp)
    show M.K.l - ndl1 M allow = M.K.l - _
    congr 1
    rw [ndl1, nDeletedL, List.filter_congr hcong]

/-- Witness exercising C8 on a concrete model. -/
theorem claim_C8_witness :
    (prunedModel model9 false).K.s = model9.K.s ∧
    (cols1 model9 false).Pairwise (· < ·) :=
  ⟨(claim_C8 model9 false).2.2.2.2.2.2.2, (claim_C8 model9 false).2.2.2.1⟩

/-! ## Support for the idempotence analysis -/

theorem length_filter_nodup_le (l : List ℕ) (hl : l.Nodup) (p : ℕ → Bool)
    (lo hi : ℕ) (hp : ∀ a ∈ l, p a = true → lo ≤ a ∧ a < hi) :
    (l.filter p).length ≤ hi - lo := by
  have hnd : (l.filter p).Nodup := hl.filter _
  rw [← List.toFinset_card_of_nodup hnd]
  have hsub : (l.filter p).toFinset ⊆ Finset.Ico lo hi := by
    intro a ha
    rw [List.mem_toFinset, List.mem_filter] at ha
    obtain ⟨h1, h2⟩ := hp a ha.1 ha.2
    exact Finset.mem_Ico.mpr ⟨h1, h2⟩
  calc (l.filter p).toFinset.card ≤ (Finset.Ico lo hi).card :=
        Finset.card_le_card hsub
    _ = hi - lo := Nat.card_Ico lo hi

theorem elimStep_no_match {n nfree : ℕ} {allow : Bool} {s : PState} {k : ℕ}
    (hc : check_eliminatibility (fun idx => s.A k idx) n (s.b.getD k 0) nfree allow
      = (none, none)) :
    elimStep n nfree allow s k = s := by
  rw [elimStep, hc]

theorem foldl_no_match (n nfree : ℕ) (allow : Bool) (s0 : PState) :
    ∀ ks : List ℕ,
      (∀ k ∈ ks, check_eliminatibility (fun idx => s0.A k idx) n (s0.b.getD k 0)
        nfree allow = (none, none)) →
      ks.foldl (elimStep n nfree allow) s0 = s0 := by
  intro ks
  induction ks with
  | nil => intro _; rfl
  | cons k ks ih =>
    intro h
    rw [List.foldl_cons, elimStep_no_match (h k (List.mem_cons_self k ks))]
    exact ih (fun k2 hk2 => h k2 (List.mem_cons_of_mem k hk2))

/-- With no eliminable row, the elimination pass leaves the model as it
found it, with offset 0. -/
theorem pass1_no_match (M1 : SeduModel) (allow : Bool)
    (helim : ∀ k < M1.m,
      check_eliminatibility (fun idx => M1.A k idx) M1.n (M1.b.getD k 0)
        M1.K.f allow = (none, none)) :
    pass1 M1 allow = ⟨M1.A, M1.b, M1.c, 0⟩ := by
  rw [pass1]
  exact foldl_no_match M1.n M1.K.f allow ⟨M1.A, M1.b, M1.c, 0⟩ (List.range M1.m)
    (fun k hk => helim k (List.mem_range.mp hk))

theorem range_split (c0 n : ℕ) (h : c0 ≤ n) :
    List.range n = List.range c0 ++ List.range' c0 (n - c0) := by
  have happ := List.range'_append_1 0 c0 (n - c0)
  rw [show n - c0 + c0 = n by omega] at happ
  rw [List.range_eq_range', List.range_eq_range', ← happ]
  norm_num

/-- A dropped column of the pruning pass is all zero. -/
theorem dropped_colzero (M : SeduModel) (allow : Bool) (col : ℕ)
    (hcol : col < M.n) (hd : col ∉ cols1 M allow) :
    ∀ r < M.m, (pass1 M allow).A r col = 0 := by
  rcases (dropped_iff M allow col hcol).mp hd with h | h
  · exact ((freeDelCol_iff _ _ _ _ _).mp h).2.2
  · exact ((nnegDelCol_iff _ _ _ _ _ _).mp h).2.2.2

/-- A dropped row of the pruning pass is all zero with zero right-hand
side. -/
theorem dropped_rowzero (M : SeduModel) (allow : Bool) (row : ℕ)
    (hrow : row < M.m) (hd : row ∉ rows1 M allow) :
    (pass1 M allow).b.getD row 0 = 0 ∧
      ∀ cc < M.n, (pass1 M allow).A row cc = 0 := by
  rw [rows1, mem_rowsToKeep] at hd
  by_contra hcon
  exact hd ⟨hrow, hcon⟩

theorem filter_length_mono_of_imp {α : Type} (l : List α) (p q : α → Bool)
    (h : ∀ x ∈ l, p x = true → q x = true) :
    (l.filter p).length ≤ (l.filter q).length := by
  rw [← List.countP_eq_length_filter, ← List.countP_eq_length_filter]
  exact List.countP_mono_left h

/-- Position-versus-boundary correspondence for a kept column: a surviving
index sits below `B` minus the number of `q`-dropped indices exactly when
the original index it stands for sits below `B`, provided `q` captures
precisely the dropped indices below `B`. -/
theorem filter_pos_boundary (keep q : ℕ → Bool) (n B : ℕ)
    (hlow : ∀ a, a < B → keep a = false → q a = true)
    (hhigh : ∀ a, B ≤ a → q a = false)
    (hqd : ∀ a, q a = true → keep a = false)
    (col2 : ℕ) (h2 : col2 < ((List.range n).filter keep).length) :
    (col2 < B - ((List.range n).filter q).length ↔
      ((List.range n).filter keep).getD col2 0 < B) := by
  obtain ⟨hkeep, hlt, hidx⟩ := filter_range_getD keep n col2 h2
  set c0 := ((List.range n).filter keep).getD col2 0 with hc0def
  have htwo := two_way_filter_length keep (List.range c0)
  rw [List.length_range] at htwo
  by_cases hcase : c0 < B
  · have hcong : ∀ a ∈ List.range c0, (!keep a) = q a := by
      intro a ha
      rw [List.mem_range] at ha
      cases hk : keep a with
      | true =>
        cases hq2 : q a with
        | false => rfl
        | true => exact absurd hk (by rw [hqd a hq2]; simp)
      | false =>
        rw [hlow a (by omega) hk]
        rfl
    have hdq : ((List.range c0).filter (fun a => !keep a)).length =
        ((List.range c0).filter q).length := by
      rw [List.filter_congr hcong]
    have hsplitq : ((List.range n).filter q).length =
        ((List.range c0).filter q).length +
        ((List.range' c0 (n - c0)).filter q).length := by
      rw [range_split c0 n (by omega), List.filter_append, List.length_append]
    have hqT : ((List.range' c0 (n - c0)).filter q).length ≤ B - (c0 + 1) := by
      refine length_filter_nodup_le _ (List.nodup_range' c0 (n - c0)) q (c0 + 1) B ?_
      intro a ha hqa
      rw [List.mem_range'_1] at ha
      have h1 : a < B := by
        by_contra hcon
        rw [hhigh a (by omega)] at hqa
        exact absurd hqa (by simp)
      have h0 : a ≠ c0 := by
        intro heq
        have hk2 := hqd a hqa
        rw [heq] at hk2
        rw [hk2] at hkeep
        exact absurd hkeep (by simp)
      exact ⟨by omega, h1⟩
    exact iff_of_true (by omega) hcase
  · push_neg at hcase
    have hqT0 : ((List.range' c0 (n - c0)).filter q).length = 0 := by
      rw [List.length_eq_zero, List.filter_eq_nil_iff]
      intro a ha
      rw [List.mem_range'_1] at ha
      rw [hhigh a (by omega)]
      simp
    have hsplitq : ((List.range n).filter q).length =
        ((List.range c0).filter q).length +
        ((List.range' c0 (n - c0)).filter q).length := by
      rw [range_split c0 n (by omega), List.filter_append, List.length_append]
    have hsplitd : ((List.range c0).filter (fun a => !keep a)).length =
        ((List.range B).filter (fun a => !keep a)).length +
        ((List.range' B (c0 - B)).filter (fun a => !keep a)).length := by
      rw [range_split B c0 hcase, List.filter_append, List.length_append]
    have hd1 : ((List.range B).filter (fun a => !keep a)).length ≤
        ((List.range B).filter q).length := by
      refine filter_length_mono_of_imp _ _ _ ?_
      intro x hx hpx
      rw [List.mem_range] at hx
      rw [Bool.not_eq_true'] at hpx
      exact hlow x hx hpx
    have hd2 : ((List.range B).filter q).length ≤
        ((List.range c0).filter q).length := by
      rw [range_split B c0 hcase, List.filter_append, List.length_append]
      omega
    have hd3 : ((List.range' B (c0 - B)).filter (fun a => !keep a)).length ≤ c0 - B := by
      calc ((List.range' B (c0 - B)).filter (fun a => !keep a)).length
        ≤ (List.range' B (c0 - B)).length := List.length_filter_le _ _
        _ = c0 - B := List.length_range' _ _ _
    exact iff_of_false (by omega) (by omega)

/-- A surviving column keeps its free/nonnegative classification: its new
index sits below the new `f` exactly when its old index sat below the old
`f`. -/
theorem cols1_getD_lt_f_iff (M : SeduModel) (allow : Bool) (col2 : ℕ)
    (h2 : col2 < (cols1 M allow).length) :
    (col2 < M.K.f - ndf1 M allow ↔ (cols1 M allow).getD col2 0 < M.K.f) := by
  refine filter_pos_boundary
    (fun col => !(freeDelCol (pass1 M allow).A (pass1 M allow).c M.m M.K.f col ||
      nnegDelCol (pass1 M allow).A (pass1 M allow).c M.m M.K.f M.K.l col))
    (fun col => freeDelCol (pass1 M allow).A (pass1 M allow).c M.m M.K.f col)
    M.n M.K.f ?_ ?_ ?_ col2 h2
  · intro a ha hk
    dsimp only at hk
    have hor : (freeDelCol (pass1 M allow).A (pass1 M allow).c M.m M.K.f a ||
        nnegDelCol (pass1 M allow).A (pass1 M allow).c M.m M.K.f M.K.l a) = true := by
      cases hor2 : (freeDelCol (pass1 M allow).A (pass1 M allow).c M.m M.K.f a ||
          nnegDelCol (pass1 M allow).A (pass1 M allow).c M.m M.K.f M.K.l a) with
      | true => rfl
      | false => rw [hor2] at hk; exact absurd hk (by simp)
    rcases Bool.or_eq_true_iff.mp hor with hfd | hnn
    · exact hfd
    · exact absurd ((nnegDelCol_iff _ _ _ _ _ _).mp hnn).1 (by omega)
  · intro a ha
    dsimp only
    cases hfd : freeDelCol (pass1 M allow).A (pass1 M allow).c M.m M.K.f a with
    | true => exact absurd ((freeDelCol_iff _ _ _ _ _).mp hfd).1 (by omega)
    | false => rfl
  · intro a hq
    dsimp only at hq ⊢
    rw [hq]
    simp

/-- A surviving column stays on the same side of the `f + l` boundary. -/
theorem cols1_getD_lt_fl_iff (M : SeduModel) (allow : Bool) (col2 : ℕ)
    (h2 : col2 < (cols1 M allow).length) :
    (col2 < (M.K.f - ndf1 M allow) + (M.K.l - ndl1 M allow) ↔
      (cols1 M allow).getD col2 0 < M.K.f + M.K.l) := by
  have hb := filter_pos_boundary
    (fun col => !(freeDelCol (pass1 M allow).A (pass1 M allow).c M.m M.K.f col ||
      nnegDelCol (pass1 M allow).A (pass1 M allow).c M.m M.K.f M.K.l col))
    (fun col => freeDelCol (pass1 M allow).A (pass1 M allow).c M.m M.K.f col ||
      nnegDelCol (pass1 M allow).A (pass1 M allow).c M.m M.K.f M.K.l col)
    M.n (M.K.f + M.K.l) ?_ ?_ ?_ col2 h2
  · have h3w : ((List.range M.n).filter
        (fun col => !(freeDelCol (pass1 M allow).A (pass1 M allow).c M.m M.K.f col ||
          nnegDelCol (pass1 M allow).A (pass1 M allow).c M.m M.K.f M.K.l col))).length +
        ((List.range M.n).filter
          (fun col => freeDelCol (pass1 M allow).A (pass1 M allow).c M.m M.K.f col)).length +
        ((List.range M.n).filter
          (fun col => !freeDelCol (pass1 M allow).A (pass1 M allow).c M.m M.K.f col &&
            nnegDelCol (pass1 M allow).A (pass1 M allow).c M.m M.K.f M.K.l col)).length
        = M.n := by
      have h := three_way_filter_length
        (fun col => freeDelCol (pass1 M allow).A (pass1 M allow).c M.m M.K.f col)
        (fun col => nnegDelCol (pass1 M allow).A (pass1 M allow).c M.m M.K.f M.K.l col)
        (List.range M.n)
      rw [List.length_range] at h
      exact h
    have h2w : ((List.range M.n).filter
        (fun col => !(freeDelCol (pass1 M allow).A (pass1 M allow).c M.m M.K.f col ||
          nnegDelCol (pass1 M allow).A (pass1 M allow).c M.m M.K.f M.K.l col))).length +
        ((List.range M.n).filter
          (fun col => freeDelCol (pass1 M allow).A (pass1 M allow).c M.m M.K.f col ||
            nnegDelCol (pass1 M allow).A (pass1 M allow).c M.m M.K.f M.K.l col)).length
        = M.n := by
      have h := two_way_filter_length
        (fun col => !(freeDelCol (pass1 M allow).A (pass1 M allow).c M.m M.K.f col ||
          nnegDelCol (pass1 M allow).A (pass1 M allow).c M.m M.K.f M.K.l col))
        (List.range M.n)
      rw [List.length_range] at h
      have hcong : ∀ a ∈ List.range M.n,
          (!!(freeDelCol (pass1 M allow).A (pass1 M allow).c M.m M.K.f a ||
            nnegDelCol (pass1 M allow).A (pass1 M allow).c M.m M.K.f M.K.l a)) =
          (freeDelCol (pass1 M allow).A (pass1 M allow).c M.m M.K.f a ||
            nnegDelCol (pass1 M allow).A (pass1 M allow).c M.m M.K.f M.K.l a) := by
        intro a ha
        rw [Bool.not_not]
      rw [List.filter_congr hcong] at h
      exact h
    have hndfv : ndf1 M allow = ((List.range M.n).filter
        (fun col => freeDelCol (pass1 M allow).A (pass1 M allow).c M.m M.K.f col)).length :=
      rfl
    have hndlv : ndl1 M allow = ((List.range M.n).filter
        (fun col => !freeDelCol (pass1 M allow).A (pass1 M allow).c M.m M.K.f col &&
          nnegDelCol (pass1 M allow).A (pass1 M allow).c M.m M.K.f M.K.l col)).length :=
      rfl
    have hf1 := ndf1_le M allow
    have hl1 := ndl1_le M allow
    have heq : (M.K.f - ndf1 M allow) + (M.K.l - ndl1 M allow) =
        (M.K.f + M.K.l) - ((List.range M.n).filter
          (fun col => freeDelCol (pass1 M allow).A (pass1 M allow).c M.m M.K.f col ||
            nnegDelCol (pass1 M allow).A (pass1 M allow).c M.m M.K.f M.K.l col)).length := by
      omega
    rw [heq]
    exact hb
  · intro a ha hk
    dsimp only at hk ⊢
    cases hor2 : (freeDelCol (pass1 M allow).A (pass1 M allow).c M.m M.K.f a ||
        nnegDelCol (pass1 M allow).A (pass1 M allow).c M.m M.K.f M.K.l a) with
    | true => rfl
    | false => rw [hor2] at hk; exact absurd hk (by simp)
  · intro a ha
    dsimp only
    rw [Bool.or_eq_false_iff]
    constructor
    · cases hfd : freeDelCol (pass1 M allow).A (pass1 M allow).c M.m M.K.f a with
      | true => exact absurd ((freeDelCol_iff _ _ _ _ _).mp hfd).1 (by omega)
      | false => rfl
    · cases hnn : nnegDelCol (pass1 M allow).A (pass1 M allow).c M.m M.K.f M.K.l a with
      | true => exact absurd ((nnegDelCol_iff _ _ _ _ _ _).mp hnn).2.1 (by omega)
      | false => rfl
  · intro a hq
    dsimp only at hq ⊢
    rw [hq]
    simp

theorem getD_range_self (n i : ℕ) (h : i < n) : (List.range n).getD i 0 = i := by
  have hlen : i < (List.range n).length := by rwa [List.length_range]
  rw [List.getD_eq_getElem _ _ hlen, List.getElem_range]

theorem mem_getD_of_mem {l : List ℕ} {x : ℕ} (hx : x ∈ l) :
    ∃ idx, idx < l.length ∧ l.getD idx 0 = x := by
  obtain ⟨idx, hidx, he⟩ := List.mem_iff_getElem.mp hx
  exact ⟨idx, hidx, by rw [List.getD_eq_getElem _ _ hidx]; exact he⟩

/-- The original index a surviving column stands for is in range and was
classified as non-deletable by the pruning pass. -/
theorem cols1_getD_spec (M : SeduModel) (allow : Bool) (c2 : ℕ)
    (h2 : c2 < (cols1 M allow).length) :
    (cols1 M allow).getD c2 0 < M.n ∧
    freeDelCol (pass1 M allow).A (pass1 M allow).c M.m M.K.f
      ((cols1 M allow).getD c2 0) = false ∧
    nnegDelCol (pass1 M allow).A (pass1 M allow).c M.m M.K.f M.K.l
      ((cols1 M allow).getD c2 0) = false := by
  obtain ⟨hkeep, hlt, -⟩ := filter_range_getD
    (fun col => !(freeDelCol (pass1 M allow).A (pass1 M allow).c M.m M.K.f col ||
      nnegDelCol (pass1 M allow).A (pass1 M allow).c M.m M.K.f M.K.l col))
    M.n c2 h2
  refine ⟨hlt, ?_, ?_⟩
  · rw [Bool.not_eq_true', Bool.or_eq_false_iff] at hkeep
    exact hkeep.1
  · rw [Bool.not_eq_true', Bool.or_eq_false_iff] at hkeep
    exact hkeep.2

/-- The original index a surviving row stands for is in range and was not
a trivial `0 = 0` row. -/
theorem rows1_getD_spec (M : SeduModel) (allow : Bool) (r2 : ℕ)
    (h2 : r2 < (rows1 M allow).length) :
    (rows1 M allow).getD r2 0 < M.m ∧
    ¬((pass1 M allow).b.getD ((rows1 M allow).getD r2 0) 0 = 0 ∧
      ∀ cc < M.n, (pass1 M allow).A ((rows1 M allow).getD r2 0) cc = 0) := by
  obtain ⟨hkeep, hlt, -⟩ := filter_range_getD
    (fun row => !(decide ((pass1 M allow).b.getD row 0 = 0) &&
      rowIsZero (pass1 M allow).A M.n row))
    M.m r2 h2
  refine ⟨hlt, ?_⟩
  rw [Bool.not_eq_true', Bool.and_eq_false_iff] at hkeep
  rintro ⟨hb0, hz⟩
  rcases hkeep with h | h
  · rw [decide_eq_false_iff_not] at h
    exact h hb0
  · rw [rowIsZero, decide_eq_false_iff_not] at h
    exact h hz

theorem prunedModel_A_entry (M : SeduModel) (allow : Bool) (r2 c2 : ℕ)
    (hr : r2 < (rows1 M allow).length) (hc : c2 < (cols1 M allow).length) :
    (prunedModel M allow).A r2 c2 =
      (pass1 M allow).A ((rows1 M allow).getD r2 0) ((cols1 M allow).getD c2 0) := by
  show (if r2 < (rows1 M allow).length ∧ c2 < (cols1 M allow).length then _ else 0) = _
  rw [if_pos ⟨hr, hc⟩]

theorem prunedModel_A_outside (M : SeduModel) (allow : Bool) (r2 c2 : ℕ)
    (h : ¬(r2 < (rows1 M allow).length ∧ c2 < (cols1 M allow).length)) :
    (prunedModel M allow).A r2 c2 = 0 := by
  show (if r2 < (rows1 M allow).length ∧ c2 < (cols1 M allow).length then _ else 0) = 0
  rw [if_neg h]

theorem prunedModel_c_entry (M : SeduModel) (allow : Bool) (c2 : ℕ)
    (hc : c2 < (cols1 M allow).length) :
    (prunedModel M allow).c c2 = (pass1 M allow).c ((cols1 M allow).getD c2 0) := by
  show (if c2 < (cols1 M allow).length then _ else 0) = _
  rw [if_pos hc]

theorem prunedModel_c_outside (M : SeduModel) (allow : Bool) (c2 : ℕ)
    (hc : ¬(c2 < (cols1 M allow).length)) :
    (prunedModel M allow).c c2 = 0 := by
  show (if c2 < (cols1 M allow).length then _ else 0) = 0
  rw [if_neg hc]

theorem prunedModel_b_entry (M : SeduModel) (allow : Bool) (r2 : ℕ)
    (hr : r2 < (rows1 M allow).length) :
    (prunedModel M allow).b.getD r2 0 =
      (pass1 M allow).b.getD ((rows1 M allow).getD r2 0) 0 := by
  show ((rows1 M allow).map (fun r => (pass1 M allow).b.getD r 0)).getD r2 0 = _
  have hlen : r2 < ((rows1 M allow).map (fun r => (pass1 M allow).b.getD r 0)).length := by
    rwa [List.length_map]
  rw [List.getD_eq_getElem _ _ hlen, List.getElem_map,
    List.getD_eq_getElem _ _ hr]

/-- A column of the pruned model is all zero exactly when the original
column is all zero in the pass-1 state (dropped rows are all-zero rows, so
they contribute nothing). -/
theorem colzero_transfer (M : SeduModel) (allow : Bool) (c2 : ℕ)
    (hc : c2 < (cols1 M allow).length) :
    ((∀ r2 < (prunedModel M allow).m, (prunedModel M allow).A r2 c2 = 0) ↔
     (∀ r < M.m, (pass1 M allow).A r ((cols1 M allow).getD c2 0) = 0)) := by
  have hc0lt := (cols1_getD_spec M allow c2 hc).1
  constructor
  · intro h r hr
    by_cases hmem : r ∈ rows1 M allow
    · obtain ⟨idx, hidx, he⟩ := mem_getD_of_mem hmem
      have h2 := h idx hidx
      rw [prunedModel_A_entry M allow idx c2 hidx hc, he] at h2
      exact h2
    · have hz := dropped_rowzero M allow r hr hmem
      exact hz.2 _ hc0lt
  · intro h r2 hr2
    rw [prunedModel_A_entry M allow r2 c2 hr2 hc]
    exact h _ (rows1_getD_spec M allow r2 hr2).1

/-- A row of the pruned model is all zero exactly when the original row is
all zero in the pass-1 state (dropped columns are all-zero columns). -/
theorem rowzero_transfer (M : SeduModel) (allow : Bool) (r2 : ℕ)
    (hr : r2 < (rows1 M allow).length) :
    ((∀ c2 < (prunedModel M allow).n, (prunedModel M allow).A r2 c2 = 0) ↔
     (∀ cc < M.n, (pass1 M allow).A ((rows1 M allow).getD r2 0) cc = 0)) := by
  have hr0lt := (rows1_getD_spec M allow r2 hr).1
  constructor
  · intro h cc hcc
    by_cases hmem : cc ∈ cols1 M allow
    · obtain ⟨idx, hidx, he⟩ := mem_getD_of_mem hmem
      have h2 := h idx hidx
      rw [prunedModel_A_entry M allow r2 idx hr hidx, he] at h2
      exact h2
    · exact dropped_colzero M allow cc hcc hmem _ hr0lt
  · intro h c2 hc2
    rw [prunedModel_A_entry M allow r2 c2 hr hc2]
    exact h _ (cols1_getD_spec M allow c2 hc2).1

/-- No column of an already-pruned model is deletable again: every
surviving column fails both deletability tests when re-examined. -/
theorem cols2_keep_all (M : SeduModel) (allow : Bool) :
    ∀ col2 < (prunedModel M allow).n,
      freeDelCol (prunedModel M allow).A (prunedModel M allow).c
        (prunedModel M allow).m (prunedModel M allow).K.f col2 = false ∧
      nnegDelCol (prunedModel M allow).A (prunedModel M allow).c
        (prunedModel M allow).m (prunedModel M allow).K.f
        (prunedModel M allow).K.l col2 = false := by
  intro col2 hcol2
  have hc2 : col2 < (cols1 M allow).length := hcol2
  constructor
  · cases hfd : freeDelCol (prunedModel M allow).A (prunedModel M allow).c
        (prunedModel M allow).m (prunedModel M allow).K.f col2 with
    | false => rfl
    | true =>
      exfalso
      obtain ⟨hle, hc0, hz⟩ := (freeDelCol_iff _ _ _ _ _).mp hfd
      have hle' : col2 < M.K.f - ndf1 M allow := hle
      have hcb := (cols1_getD_lt_f_iff M allow col2 hc2).mp hle'
      have hcv : (pass1 M allow).c ((cols1 M allow).getD col2 0) = 0 := by
        rw [← prunedModel_c_entry M allow col2 hc2]
        exact hc0
      have hzv := (colzero_transfer M allow col2 hc2).mp hz
      have hfd0 : freeDelCol (pass1 M allow).A (pass1 M allow).c M.m M.K.f
          ((cols1 M allow).getD col2 0) = true :=
        (freeDelCol_iff _ _ _ _ _).mpr ⟨hcb, hcv, hzv⟩
      rw [(cols1_getD_spec M allow col2 hc2).2.1] at hfd0
      exact absurd hfd0 (by simp)
  · cases hnn : nnegDelCol (prunedModel M allow).A (prunedModel M allow).c
        (prunedModel M allow).m (prunedModel M allow).K.f
        (prunedModel M allow).K.l col2 with
    | false => rfl
    | true =>
      exfalso
      obtain ⟨hge, hlt, hcnn, hz⟩ := (nnegDelCol_iff _ _ _ _ _ _).mp hnn
      have hge' : M.K.f - ndf1 M allow ≤ col2 := hge
      have hlt' : col2 < (M.K.f - ndf1 M allow) + (M.K.l - ndl1 M allow) := hlt
      have hcb : ¬((cols1 M allow).getD col2 0 < M.K.f) := by
        intro hcon
        have := (cols1_getD_lt_f_iff M allow col2 hc2).mpr hcon
        omega
      have hcl : (cols1 M allow).getD col2 0 < M.K.f + M.K.l :=
        (cols1_getD_lt_fl_iff M allow col2 hc2).mp hlt'
      have hcv : 0 ≤ (pass1 M allow).c ((cols1 M allow).getD col2 0) := by
        rw [← prunedModel_c_entry M allow col2 hc2]
        exact hcnn
      have hzv := (colzero_transfer M allow col2 hc2).mp hz
      have hnn0 : nnegDelCol (pass1 M allow).A (pass1 M allow).c M.m M.K.f M.K.l
          ((cols1 M allow).getD col2 0) = true :=
        (nnegDelCol_iff _ _ _ _ _ _).mpr ⟨by omega, hcl, hcv, hzv⟩
      rw [(cols1_getD_spec M allow col2 hc2).2.2] at hnn0
      exact absurd hnn0 (by simp)

/-- No row of an already-pruned model is a trivial `0 = 0` row. -/
theorem rows2_keep_all (M : SeduModel) (allow : Bool) :
    ∀ row2 < (prunedModel M allow).m,
      ¬((prunedModel M allow).b.getD row2 0 = 0 ∧
        ∀ cc < (prunedModel M allow).n, (prunedModel M allow).A row2 cc = 0) := by
  intro row2 hrow2
  have hr2 : row2 < (rows1 M allow).length := hrow2
  rintro ⟨hb0, hz⟩
  have hb0v : (pass1 M allow).b.getD ((rows1 M allow).getD row2 0) 0 = 0 := by
    rw [← prunedModel_b_entry M allow row2 hr2]
    exact hb0
  have hzv := (rowzero_transfer M allow row2 hr2).mp hz
  exact (rows1_getD_spec M allow row2 hr2).2 ⟨hb0v, hzv⟩

theorem SeduModel_eq_of_fields (X Y : SeduModel) (hm : X.m = Y.m) (hn : X.n = Y.n)
    (hA : X.A = Y.A) (hb : X.b = Y.b) (hc : X.c = Y.c) (hK : X.K = Y.K) : X = Y := by
  obtain ⟨xm, xn, xA, xb, xc, xK⟩ := X
  obtain ⟨ym, yn, yA, yb, yc, yK⟩ := Y
  dsimp only at hm hn hA hb hc hK
  subst hm
  subst hn
  subst hA
  subst hb
  subst hc
  subst hK
  rfl

/-- A model on which the Simplifier has nothing to do — no eliminable row,
no deletable column, no trivial row, clamped outside its dimensions, at
least one variable — comes back unchanged with offset 0. -/
theorem simplify_fixed_of_stable (M1 : SeduModel) (allow : Bool)
    (hbl : M1.m = M1.b.length)
    (hclampA : ∀ r cc, ¬(r < M1.m ∧ cc < M1.n) → M1.A r cc = 0)
    (hclampC : ∀ cc, ¬(cc < M1.n) → M1.c cc = 0)
    (hn : 0 < M1.n)
    (helim : ∀ k < M1.m,
      check_eliminatibility (fun idx => M1.A k idx) M1.n (M1.b.getD k 0)
        M1.K.f allow = (none, none))
    (hkeepC : ∀ col < M1.n,
      freeDelCol M1.A M1.c M1.m M1.K.f col = false ∧
      nnegDelCol M1.A M1.c M1.m M1.K.f M1.K.l col = false)
    (hkeepR : ∀ row < M1.m,
      ¬(M1.b.getD row 0 = 0 ∧ ∀ cc < M1.n, M1.A row cc = 0)) :
    simplify_sedumi_model M1 allow = some (M1, 0) := by
  have hpass : pass1 M1 allow = ⟨M1.A, M1.b, M1.c, 0⟩ := pass1_no_match M1 allow helim
  have hcols : cols1 M1 allow = List.range M1.n := by
    rw [cols1, colsToKeep, hpass]
    refine List.filter_eq_self.mpr ?_
    intro col hcol
    rw [List.mem_range] at hcol
    dsimp only
    rw [(hkeepC col hcol).1, (hkeepC col hcol).2]
    rfl
  have hrows : rows1 M1 allow = List.range M1.m := by
    rw [rows1, rowsToKeep, hpass]
    refine List.filter_eq_self.mpr ?_
    intro row hrow
    rw [List.mem_range] at hrow
    dsimp only
    rw [Bool.not_eq_true', Bool.and_eq_false_iff]
    by_cases hb : M1.b.getD row 0 = 0
    · right
      rw [rowIsZero, decide_eq_false_iff_not]
      intro hz
      exact hkeepR row hrow ⟨hb, hz⟩
    · left
      rw [decide_eq_false_iff_not]
      exact hb
  have hndf : ndf1 M1 allow = 0 := by
    rw [ndf1, nDeletedF, hpass, List.length_eq_zero, List.filter_eq_nil_iff]
    intro col hcol
    rw [List.mem_range] at hcol
    intro hcon
    dsimp only at hcon
    rw [(hkeepC col hcol).1] at hcon
    exact absurd hcon (by simp)
  have hndl : ndl1 M1 allow = 0 := by
    rw [ndl1, nDeletedL, hpass, List.length_eq_zero, List.filter_eq_nil_iff]
    intro col hcol
    rw [List.mem_range] at hcol
    intro hcon
    dsimp only at hcon
    rw [(hkeepC col hcol).2] at hcon
    simp at hcon
  have hoff : (pass1 M1 allow).offset = 0 := by rw [hpass]
  have hpm : prunedModel M1 allow = M1 := by
    refine SeduModel_eq_of_fields _ _ ?_ ?_ ?_ ?_ ?_ ?_
    · show (rows1 M1 allow).length = M1.m
      rw [hrows, List.length_range]
    · show (cols1 M1 allow).length = M1.n
      rw [hcols, List.length_range]
    · funext r cc
      show (if r < (rows1 M1 allow).length ∧ cc < (cols1 M1 allow).length then
          (pass1 M1 allow).A ((rows1 M1 allow).getD r 0) ((cols1 M1 allow).getD cc 0)
        else 0) = M1.A r cc
      rw [hrows, hcols, hpass, List.length_range, List.length_range]
      dsimp only
      by_cases h : r < M1.m ∧ cc < M1.n
      · rw [if_pos h, getD_range_self M1.m r h.1, getD_range_self M1.n cc h.2]
      · rw [if_neg h]
        exact (hclampA r cc h).symm
    · show (rows1 M1 allow).map (fun r => (pass1 M1 allow).b.getD r 0) = M1.b
      rw [hrows, hpass]
      dsimp only
      refine List.ext_getElem ?_ ?_
      · rw [List.length_map, List.length_range]
        exact hbl
      · intro i h1 h2
        simp only [List.getElem_map, List.getElem_range]
        rw [List.getD_eq_getElem _ _ h2]
    · funext cc
      show (if cc < (cols1 M1 allow).length then
          (pass1 M1 allow).c ((cols1 M1 allow).getD cc 0) else 0) = M1.c cc
      rw [hcols, hpass, List.length_range]
      dsimp only
      by_cases h : cc < M1.n
      · rw [if_pos h, getD_range_self M1.n cc h]
      · rw [if_neg h]
        exact (hclampC cc h).symm
    · show (⟨M1.K.f - ndf1 M1 allow, M1.K.l - ndl1 M1 allow, M1.K.s⟩ : Cone) = M1.K
      rw [hndf, hndl, Nat.sub_zero, Nat.sub_zero]
  rw [simplify_eq_some M1 allow (by omega), hpm, hoff]

/-- C9 (amended): when the first `simplify_sedumi_model` call succeeds,
leaves no further eliminable rows, and its output keeps at least one
variable, a second call on that output returns the same `A`, `b`, `c`,
`K` unchanged with offset 0.  (Without the surviving-variable proviso the
second call can instead fail its `assert`: see the counterexample.) -/
theorem claim_C9 (M : SeduModel) (hs : (simplify_sedumi_model M false).isSome)
    (helim : ∀ k < ((simplify_sedumi_model M false).get hs).1.m,
      check_eliminatibility
        (fun idx => ((simplify_sedumi_model M false).get hs).1.A k idx)
        ((simplify_sedumi_model M false).get hs).1.n
        (((simplify_sedumi_model M false).get hs).1.b.getD k 0)
        ((simplify_sedumi_model M false).get hs).1.K.f false = (none, none))
    (hn : 0 < ((simplify_sedumi_model M false).get hs).1.n) :
    simplify_sedumi_model ((simplify_sedumi_model M false).get hs).1 false =
      some (((simplify_sedumi_model M false).get hs).1, 0) := by
  rw [simplify_get M false hs] at helim hn ⊢
  dsimp only at helim hn ⊢
  exact simplify_fixed_of_stable (prunedModel M false) false
    (prunedModel_m_eq_b_length M false)
    (fun r cc h => prunedModel_A_outside M false r cc h)
    (fun cc h => prunedModel_c_outside M false cc h)
    hn helim (cols2_keep_all M false) (rows2_keep_all M false)

theorem claim_C9_witness :
    simplify_sedumi_model ((simplify_sedumi_model model9 false).get (by decide)).1
        false =
      some (((simplify_sedumi_model model9 false).get (by decide)).1, 0) :=
  claim_C9 model9 (by decide) (by decide) (by decide)

theorem claim_C9_counterexample :
    (simplify_sedumi_model modelC9 false).isSome = true ∧
    (∀ k < ((simplify_sedumi_model modelC9 false).get (by decide)).1.m,
      check_eliminatibility
        (fun idx => ((simplify_sedumi_model modelC9 false).get (by decide)).1.A k idx)
        ((simplify_sedumi_model modelC9 false).get (by decide)).1.n
        (((simplify_sedumi_model modelC9 false).get (by decide)).1.b.getD k 0)
        ((simplify_sedumi_model modelC9 false).get (by decide)).1.K.f false
        = (none, none)) ∧
    simplify_sedumi_model ((simplify_sedumi_model modelC9 false).get (by decide)).1
        false = none := by
  refine ⟨by decide, by decide, Option.isNone_iff_eq_none.mp (by decide)⟩

end SedumiWriter
